import Mathlib

/-!
# Verification of the CircuitMatter cryptographic core

Shallow embedding of the security core of CircuitMatter:
`circuitmatter/pase.py` (SPAKE2+ engine and session key scheduler),
`cm_ecdsa/numbertheory.py` (modular inverse, Jacobi symbol, modular square
root, primality testing) and `cm_ecdsa/rfc6979.py` (deterministic nonce
generation).  Python integers are modelled as `Nat`/`Int` with explicit
modular reduction, byte strings as `List Nat`, loops as fuel-based
structural recursion, and fallible code as `Option`/`Except`.
External cryptographic primitives (hashes, HMAC, HKDF, PBKDF2) are
parameters of the definitions, exactly as `hash_func` is a parameter of
`generate_k` in the source.
-/

/-! ## Byte-string and modular-arithmetic helpers -/

/-- Big-endian encoding of `v` on `w` bytes (Python `int.to_bytes(w, "big")`,
taken modulo `256 ^ w`). -/
def natToBytesBE : Nat → Nat → List Nat
  | 0, _ => []
  | w + 1, v => natToBytesBE w (v / 256) ++ [v % 256]

/-- Little-endian encoding of `v` on `w` bytes (Python `struct.pack("<I", v)`
for `w = 4`, `struct.pack("<Q", v)` for `w = 8`, defined for `v < 256 ^ w`). -/
def natToBytesLE (w v : Nat) : List Nat :=
  (List.range w).map fun i => v / 256 ^ i % 256

/-- Big-endian decoding of a byte string
(Python `int.from_bytes(bs, byteorder="big")`). -/
def bytesToNatBE (bs : List Nat) : Nat :=
  bs.foldl (fun acc b => acc * 256 + b) 0

/-- Python's `bit_length`, via halving with fuel (fuel `n` always suffices). -/
def bitLenAux : Nat → Nat → Nat
  | 0, _ => 0
  | f + 1, n => if n = 0 then 0 else bitLenAux f (n / 2) + 1

/-- Python's `int.bit_length()`. -/
def bitLength (n : Nat) : Nat := bitLenAux n n

/-- Binary modular exponentiation, the model of Python's three-argument
`pow(b, e, m)`.  The fuel (first argument of the worker) only needs to be at
least `e`, since the exponent halves at every step. -/
def powModAux (m : Nat) : Nat → Nat → Nat → Nat → Nat
  | 0, _, _, acc => acc
  | fuel + 1, b, e, acc =>
    if e = 0 then acc
    else powModAux m fuel (b * b % m) (e / 2)
      (if e % 2 = 1 then acc * b % m else acc)

/-- Python `pow(b, e, m)`. -/
def powMod (b e m : Nat) : Nat := powModAux m e b e (1 % m)

/-! ## `cm_ecdsa/numbertheory.py` -/

namespace Numbertheory

/-- The loop `while a1 % 2 == 0: a1, e = a1 // 2, e + 1` from `jacobi`
(also `s, r` extraction in `is_prime`): returns `(a1, e)` with the odd part
first.  Fuel `a` suffices for input `a ≥ 1`. -/
def oddSplit : Nat → Nat → Nat × Nat
  | 0, a => (a, 0)
  | f + 1, a =>
    if a % 2 = 0 ∧ a ≠ 0 then
      let r := oddSplit f (a / 2)
      (r.1, r.2 + 1)
    else (a, 0)

/-- `numbertheory.jacobi(a, n)`.  The Python function raises `JacobiError`
for `n < 3` or even `n` (modelled by `none`) and otherwise recurses with a
strictly smaller second argument; the fuel only needs to be at least `n`.
Python's `%` on a possibly negative `a` is `Int.emod`. -/
def jacobi : Nat → Int → Nat → Option Int
  | 0, _, _ => none
  | fuel + 1, a, n =>
    if n < 3 then none
    else if n % 2 = 0 then none
    else
      let a' := (a % (n : Int)).toNat
      if a' = 0 then some 0
      else if a' = 1 then some 1
      else
        let sp := oddSplit a' a'
        let a1 := sp.1
        let e := sp.2
        let s : Int := if e % 2 = 0 ∨ n % 8 = 1 ∨ n % 8 = 7 then 1 else -1
        if a1 = 1 then some s
        else
          let s' : Int := if n % 4 = 3 ∧ a1 % 4 = 3 then -s else s
          (jacobi fuel ((n % a1 : Nat) : Int) a1).map fun j => s' * j

/-- One pass of the `while len(poly) >= len(polymod)` body of
`numbertheory.polynomial_reduce_mod`: if the top coefficient is non-zero,
subtract its multiple of `polymod` from the tail-aligned coefficients
(all mod `p`), then drop the top coefficient. -/
def reduceStep (poly polymod : List Int) (p : Nat) : List Int :=
  let L := poly.length
  let m := polymod.length
  let q := poly.getLastD 0
  let front := poly.take (L - m)
  let mid := (poly.drop (L - m)).take (m - 1)
  let mid' :=
    if q = 0 then mid
    else (mid.zip (polymod.take (m - 1))).map fun ac => (ac.1 - q * ac.2) % (p : Int)
  front ++ mid'

/-- `numbertheory.polynomial_reduce_mod(poly, polymod, p)`; fuel
`poly.length` suffices since each step shortens `poly` by one. -/
def polynomial_reduce_mod : Nat → List Int → List Int → Nat → List Int
  | 0, poly, _, _ => poly
  | f + 1, poly, polymod, p =>
    if polymod.length ≤ poly.length then
      polynomial_reduce_mod f (reduceStep poly polymod p) polymod p
    else poly

/-- `numbertheory.polynomial_multiply_mod(m1, m2, polymod, p)`: accumulate
all cross terms mod `p` into a zero-initialised product, then reduce by
`polymod`. -/
def polynomial_multiply_mod (m1 m2 polymod : List Int) (p : Nat) : List Int :=
  let prod :=
    (List.range m1.length).foldl
      (fun prod i =>
        (List.range m2.length).foldl
          (fun prod j =>
            prod.set (i + j)
              ((prod.getD (i + j) 0 + m1.getD i 0 * m2.getD j 0) % (p : Int)))
          prod)
      (List.replicate (m1.length + m2.length - 1) 0)
  polynomial_reduce_mod prod.length prod polymod p

/-- The `while k > 1` loop of `numbertheory.polynomial_exp_mod`; the fuel
only needs to be at least `k` since `k` halves at each step. -/
def polyExpLoop : Nat → Nat → List Int → List Int → List Int → Nat → List Int
  | 0, _, _, s, _, _ => s
  | f + 1, k, G, s, polymod, p =>
    if 1 < k then
      let k' := k / 2
      let G' := polynomial_multiply_mod G G polymod p
      let s' := if k' % 2 = 1 then polynomial_multiply_mod G' s polymod p else s
      polyExpLoop f k' G' s' polymod p
    else s

/-- `numbertheory.polynomial_exp_mod(base, exponent, polymod, p)`
(the source asserts `exponent < p`; every call below satisfies it). -/
def polynomial_exp_mod (base : List Int) (exponent : Nat) (polymod : List Int)
    (p : Nat) : List Int :=
  if exponent = 0 then [1]
  else polyExpLoop exponent exponent base (if exponent % 2 = 1 then base else [1])
    polymod p

/-- The failure modes of `square_root_mod_prime`:
`noSquareRoot` is `SquareRootError("%d has no square root modulo %d")`,
`notPrime` is `SquareRootError("p is not prime")`, `jacobiError` a
`JacobiError` escaping from `jacobi`, `assertionFailed` a failed `assert`,
and `noBFound` the final `RuntimeError`. -/
inductive SqrtError
  | noSquareRoot
  | notPrime
  | jacobiError
  | assertionFailed
  | noBFound
  deriving DecidableEq, Repr

/-- The `for b in range(2, p)` loop of `square_root_mod_prime`: find the
first `b` whose discriminant `b² - 4a` is a non-residue and exponentiate
`x` to `(p+1)/2` in the ring `GF(p)[x]/(x² - bx + a)`. -/
def bSearch (a p : Nat) : Nat → Nat → Except SqrtError Nat
  | 0, _ => .error .noBFound
  | f + 1, b =>
    if p ≤ b then .error .noBFound
    else
      match jacobi p ((b : Int) * b - 4 * (a : Int)) p with
      | none => .error .jacobiError
      | some j =>
        if j = -1 then
          let ff := polynomial_exp_mod [0, 1] ((p + 1) / 2)
            [(a : Int), -(b : Int), 1] p
          if ff.getD 1 0 ≠ 0 then .error .notPrime
          else .ok (ff.getD 0 0).toNat
        else bSearch a p f (b + 1)

/-- `numbertheory.square_root_mod_prime(a, p)`. -/
def square_root_mod_prime (a p : Nat) : Except SqrtError Nat :=
  if ¬(a < p ∧ 1 < p) then .error .assertionFailed
  else if a = 0 then .ok 0
  else if p = 2 then .ok a
  else
    match jacobi p (a : Int) p with
    | none => .error .jacobiError
    | some jac =>
      if jac = -1 then .error .noSquareRoot
      else if p % 4 = 3 then .ok (powMod a ((p + 1) / 4) p)
      else if p % 8 = 5 then
        let d := powMod a ((p - 1) / 4) p
        if d = 1 then .ok (powMod a ((p + 3) / 8) p)
        else if d = p - 1 then .ok (2 * a * powMod (4 * a) ((p - 5) / 8) p % p)
        else .error .assertionFailed
      else bSearch a p p 2

/-- The `while low > 1` loop of `numbertheory.inverse_mod`, with state
`(lm, low, hm, high)`; the remainder `low` strictly decreases, so fuel
above the initial `low` suffices. -/
def inverse_mod_loop : Nat → Int → Int → Int → Int → Int
  | 0, lm, _, _, _ => lm
  | f + 1, lm, low, hm, high =>
    if 1 < low then
      let r := high / low
      inverse_mod_loop f (hm - lm * r) (high - low * r) lm low
    else lm

/-- `numbertheory.inverse_mod(a, m)`: extended Euclid, returning `0` for
`a = 0` and `lm % m` otherwise. -/
def inverse_mod (a m : Int) : Int :=
  if a = 0 then 0
  else inverse_mod_loop ((a % m).toNat + 1) 1 (a % m) 0 m % m

/-- The module-level table `numbertheory.smallprimes`. -/
def smallprimes : List Nat :=
  [2, 3, 5, 7, 11, 13, 17, 19, 23, 29, 31, 37, 41, 43, 47, 53, 59, 61, 67,
   71, 73, 79, 83, 89, 97, 101, 103, 107, 109, 113, 127, 131, 137, 139, 149,
   151, 157, 163, 167, 173, 179, 181, 191, 193, 197, 199, 211, 223, 227, 229,
   233, 239, 241, 251, 257, 263, 269, 271, 277, 281, 283, 293, 307, 311, 313,
   317, 331, 337, 347, 349, 353, 359, 367, 373, 379, 383, 389, 397, 401, 409,
   419, 421, 431, 433, 439, 443, 449, 457, 461, 463, 467, 479, 487, 491, 499,
   503, 509, 521, 523, 541, 547, 557, 563, 569, 571, 577, 587, 593, 599, 601,
   607, 613, 617, 619, 631, 641, 643, 647, 653, 659, 661, 673, 677, 683, 691,
   701, 709, 719, 727, 733, 739, 743, 751, 757, 761, 769, 773, 787, 797, 809,
   811, 821, 823, 827, 829, 839, 853, 857, 859, 863, 877, 881, 883, 887, 907,
   911, 919, 929, 937, 941, 947, 953, 967, 971, 977, 983, 991, 997, 1009,
   1013, 1019, 1021, 1031, 1033, 1039, 1049, 1051, 1061, 1063, 1069, 1087,
   1091, 1093, 1097, 1103, 1109, 1117, 1123, 1129, 1151, 1153, 1163, 1171,
   1181, 1187, 1193, 1201, 1213, 1217, 1223, 1229]

/-- The iteration schedule table of `is_prime`
(`for k, tt in ((100, 27), ..., (1300, 2))`). -/
def schedTable : List (Nat × Nat) :=
  [(100, 27), (150, 18), (200, 15), (250, 12), (300, 9), (350, 8), (400, 7),
   (450, 6), (550, 5), (650, 4), (850, 3), (1300, 2)]

/-- The schedule loop of `is_prime`: starting from `t = 40`, walk the table
and keep the last entry whose threshold does not exceed `n_bits`. -/
def schedLoop : List (Nat × Nat) → Nat → Nat → Nat
  | [], _, t => t
  | (k, tt) :: rest, n_bits, t =>
    if n_bits < k then t else schedLoop rest n_bits tt

/-- The inner `while j <= s - 1 and y != n - 1` squaring loop of one
Miller–Rabin round in `is_prime`; the fuel is `s - 1` (the number of
remaining values of `j`), and a `false` result is `return False`. -/
def mrLoop (n : Nat) : Nat → Nat → Bool
  | 0, y => y = n - 1
  | f + 1, y =>
    if y = n - 1 then true
    else
      let y' := y * y % n
      if y' = 1 then false
      else mrLoop n f y'

/-- One Miller–Rabin round of `is_prime` for base `a`
(`y = pow(a, r, n)` followed by the squaring loop). -/
def mrRound (n s r a : Nat) : Bool :=
  let y := powMod a r n
  if y ≠ 1 ∧ y ≠ n - 1 then mrLoop n (s - 1) y else true

/-- `numbertheory.is_prime(n)`.  For `n` up to the last table entry the
result is table membership.  For larger `n` the source next evaluates
`gcd(n, 2310)` (line 295), but `gcd` is neither defined in
`numbertheory.py` nor imported (the module imports only `sys`, `math` and
`random`; only a changelog comment at line 16 mentions `gcd`), so every
such call raises `NameError` before any trial division or Miller–Rabin
round runs — modelled `none`.  The schedule walk and the Miller–Rabin
rounds below line 295 (embedded above as `schedLoop`, `mrLoop` and
`mrRound`) are unreachable. -/
def is_prime (n : Nat) : Option Bool :=
  if n ≤ smallprimes.getLastD 0 then some (smallprimes.contains n)
  else none

end Numbertheory

/-! ## `circuitmatter/pase.py`

The hash/HMAC/HKDF/PBKDF2 primitives consumed from `circuitmatter.crypto`,
`hashlib` and `cryptography` are abstract function parameters; the
protocol-level constants and the curve/point engine of the vendored
`cm_ecdsa.ellipticcurve` / `cm_ecdsa.ecdsa` modules (not under `src/`) are
modelled from the spec. -/

namespace Pase

/-- Modelled from the spec: `circuitmatter/crypto.py` is not under `src/`.
§3 fixes the group to the 256-bit NIST prime curve, so a field element is
32 bytes. -/
def GROUP_SIZE_BYTES : Nat := 32

/-- Modelled from the spec: `circuitmatter/crypto.py` is not under `src/`.
§4.4 step 6 splits `Hash` output (SHA-256, 32 bytes) at the midpoint. -/
def HASH_LEN_BYTES : Nat := 32

/-- Modelled from the spec: hash length in bits. -/
def HASH_LEN_BITS : Nat := 8 * HASH_LEN_BYTES

/-- Modelled from the spec: `circuitmatter/crypto.py` is not under `src/`.
§4.5: symmetric keys for the 128-bit-tag AEAD are 128 bits. -/
def SYMMETRIC_KEY_LENGTH_BITS : Nat := 128

/-- Modelled from the spec: symmetric key length in bytes. -/
def SYMMETRIC_KEY_LENGTH_BYTES : Nat := SYMMETRIC_KEY_LENGTH_BITS / 8

/-- `crypto.W_SIZE_BYTES = crypto.GROUP_SIZE_BYTES + 8` (set in `pase.py`). -/
def W_SIZE_BYTES : Nat := GROUP_SIZE_BYTES + 8

/-- Modelled from the spec: the NIST P-256 field prime (the vendored
`cm_ecdsa/ecdsa.py` holding `curve_256` is not under `src/`; §3 names
"the 256-bit NIST prime curve"). -/
def p256_p : Nat :=
  115792089210356248762697446949407573530086143415290314195533631308867097853951

/-- Modelled from the spec: the NIST P-256 coefficient `a = -3`. -/
def p256_a : Int := -3

/-- Modelled from the spec: the NIST P-256 coefficient `b`. -/
def p256_b : Nat :=
  41058363725152142129326129780047268409114441015993725554835256314039467401291

/-- Modelled from the spec: the NIST P-256 group order. -/
def p256_n : Nat :=
  115792089210356248762697446949407573529996955224135760342422259061068512044369

/-- Modelled from the spec: the NIST P-256 cofactor (§4.4 step 4: "here
cofactor = 1"). -/
def p256_h : Nat := 1

/-- Modelled from the spec: the NIST P-256 generator x-coordinate. -/
def p256_Gx : Nat :=
  48439561293906451759052585252797914202762949526041747995844080717082404635286

/-- Modelled from the spec: the NIST P-256 generator y-coordinate. -/
def p256_Gy : Nat :=
  36134250956749795798585127919587881956611106672985015071877198253568414405109

/-- A group element: `none` is the point at infinity (§3 "Point"). -/
abbrev Point := Option (Nat × Nat)

/-- Modelled from the spec: the generator point of the curve. -/
def p256_G : Point := some (p256_Gx, p256_Gy)

/-- Modelled from the spec: §4.2 "Negation flips the y-coordinate modulo the
field prime". -/
def pneg : Point → Point
  | none => none
  | some (x, y) => some (x, (p256_p - y) % p256_p)

/-- Modelled from the spec: §4.2 "point addition and doubling follow
standard short-Weierstrass formulas; the identity element acts as an
additive zero".  Slopes use `numbertheory.inverse_mod`, as the vendored
point engine does. -/
def padd : Point → Point → Point
  | none, q => q
  | p, none => p
  | some (x1, y1), some (x2, y2) =>
    let pI : Int := p256_p
    let X1 : Int := x1
    let Y1 : Int := y1
    let X2 : Int := x2
    let Y2 : Int := y2
    if (X1 - X2) % pI = 0 then
      if (Y1 + Y2) % pI = 0 then none
      else
        let l := (3 * X1 * X1 + p256_a) * Numbertheory.inverse_mod ((2 * Y1) % pI) pI % pI
        let x3 := (l * l - 2 * X1) % pI
        let y3 := (l * (X1 - x3) - Y1) % pI
        some (x3.toNat, y3.toNat)
    else
      let l := (Y2 - Y1) * Numbertheory.inverse_mod ((X2 - X1) % pI) pI % pI
      let x3 := (l * l - X1 - X2) % pI
      let y3 := (l * (X1 - x3) - Y1) % pI
      some (x3.toNat, y3.toNat)

/-- The double-and-add loop for scalar multiplication; fuel `257` suffices
for scalars below `2 ^ 256`. -/
def pmulAux : Nat → Nat → Point → Point → Point
  | 0, _, _, acc => acc
  | f + 1, k, base, acc =>
    if k = 0 then acc
    else pmulAux f (k / 2) (padd base base)
      (if k % 2 = 1 then padd acc base else acc)

/-- Modelled from the spec: §4.2 "Scalar multiplication uses any
constant-structure double-and-add variant; the scalar is first reduced
modulo the curve order". -/
def pmul (k : Nat) (P : Point) : Point := pmulAux 257 (k % p256_n) P none

/-- `to_bytes("uncompressed")`: `0x04 ‖ x ‖ y`, 32 bytes each (§4.2, "byte
length is fixed at `1 + 2×baselen`").  The identity has no affine
coordinates, so encoding it raises in the source: `none`. -/
def pointToBytes : Point → Option (List Nat)
  | none => none
  | some (x, y) => some (4 :: (natToBytesBE 32 x ++ natToBytesBE 32 y))

/-- Modelled from the spec: §4.2 point decoding, "three encodings:
uncompressed (prefix 0x04, full x‖y), compressed (prefix 0x02/0x03, x plus
a y-parity bit recovered via `square_root_mod_prime`), and hybrid".
Uncompressed: full `x ‖ y`, validated against the curve equation (as
`Point.from_bytes` asserts `contains_point`).  Hybrid: prefix `0x06`/`0x07`
followed by the full `x ‖ y`; the prefix must be `0x06 + (y mod 2)` (the
library's `validate_encoding` consistency check), then the same
curve-equation check.  Compressed: `y` recovered via
`square_root_mod_prime` and matched to the parity bit.  Unrecognized
prefix or wrong length fails (`none` is the malformed-point error). -/
def decodePoint (bs : List Nat) : Point :=
  if bs.length = 65 ∧ bs.headD 0 = 4 then
    let x := bytesToNatBE ((bs.drop 1).take 32)
    let y := bytesToNatBE (bs.drop 33)
    if ((y : Int) * y - ((x : Int) * x * x + p256_a * x + p256_b)) % (p256_p : Int) = 0 then
      some (x, y)
    else none
  else if bs.length = 65 ∧ (bs.headD 0 = 6 ∨ bs.headD 0 = 7) then
    let x := bytesToNatBE ((bs.drop 1).take 32)
    let y := bytesToNatBE (bs.drop 33)
    if bs.headD 0 = 6 + y % 2 then
      if ((y : Int) * y - ((x : Int) * x * x + p256_a * x + p256_b)) % (p256_p : Int) = 0 then
        some (x, y)
      else none
    else none
  else if bs.length = 33 ∧ (bs.headD 0 = 2 ∨ bs.headD 0 = 3) then
    let x := bytesToNatBE (bs.drop 1)
    if p256_p ≤ x then none
    else
      let alpha := (x * x % p256_p * x + (p256_b + p256_p * 3 - 3 * x)) % p256_p
      match Numbertheory.square_root_mod_prime alpha p256_p with
      | .error _ => none
      | .ok beta =>
        if beta % 2 = bs.headD 0 % 2 then some (x, beta)
        else some (x, p256_p - beta)
  else none

/-- The compressed encoding of the SPAKE2+ constant `M` compiled into
`pase.py`. -/
def M_bytes : List Nat :=
  [0x02, 0x88, 0x6e, 0x2f, 0x97, 0xac, 0xe4, 0x6e, 0x55, 0xba, 0x9d, 0xd7,
   0x24, 0x25, 0x79, 0xf2, 0x99, 0x3b, 0x64, 0xe1, 0x6e, 0xf3, 0xdc, 0xab,
   0x95, 0xaf, 0xd4, 0x97, 0x33, 0x3d, 0x8f, 0xa1, 0x2f]

/-- The compressed encoding of the SPAKE2+ constant `N` compiled into
`pase.py`. -/
def N_bytes : List Nat :=
  [0x03, 0xd8, 0xbb, 0xd6, 0xc6, 0x39, 0xc6, 0x29, 0x37, 0xb0, 0x4d, 0x99,
   0x7f, 0x38, 0xc3, 0x77, 0x07, 0x19, 0xc6, 0x29, 0xd7, 0x01, 0x4d, 0x49,
   0xa2, 0x4b, 0x4f, 0x98, 0xba, 0xa1, 0x29, 0x2b, 0x49]

/-- `M = PointJacobi.from_bytes(NIST256p.curve, ...)`. -/
def Mpoint : Point := decodePoint M_bytes

/-- `N = PointJacobi.from_bytes(NIST256p.curve, ...)`. -/
def Npoint : Point := decodePoint N_bytes

/-- `M.to_bytes("uncompressed")` as used by `Crypto_Transcript`.  `M` is a
finite curve point, so the encoding succeeds and the default is never
taken (`M_enc_some` below computes `pointToBytes Mpoint = some M_enc`). -/
def M_enc : List Nat := (pointToBytes Mpoint).getD []

/-- `N.to_bytes("uncompressed")` as used by `Crypto_Transcript`; like `M`,
the constant `N` is a finite curve point (`N_enc_some` below). -/
def N_enc : List Nat := (pointToBytes Npoint).getD []

/-- `pase._pbkdf2(passcode, salt, iterations)`: PBKDF2-HMAC-SHA256 (the
`hashlib` primitive is the abstract parameter `pbkdf2`, applied to the
4-byte little-endian passcode, the salt, the iteration count and the output
length `2 * W_SIZE_BYTES`), both halves decoded big-endian and reduced mod
the curve order. -/
def _pbkdf2 (pbkdf2 : List Nat → List Nat → Nat → Nat → List Nat)
    (passcode : Nat) (salt : List Nat) (iterations : Nat) : Nat × Nat :=
  let ws := pbkdf2 (natToBytesLE 4 passcode) salt iterations (W_SIZE_BYTES * 2)
  (bytesToNatBE (ws.take W_SIZE_BYTES) % p256_n,
   bytesToNatBE (ws.drop W_SIZE_BYTES) % p256_n)

/-- `pase.verifier_values(passcode, salt, iterations)`: `w0` encoded
big-endian on `NIST256p.baselen = 32` bytes and `L = w1 · Generator`
encoded uncompressed (`none` in the second component marks the
`to_bytes` raise when `w1 ≡ 0` makes `L` the identity — the source call
then returns nothing at all). -/
def verifier_values (pbkdf2 : List Nat → List Nat → Nat → Nat → List Nat)
    (passcode : Nat) (salt : List Nat) (iterations : Nat) :
    List Nat × Option (List Nat) :=
  let w := _pbkdf2 pbkdf2 passcode salt iterations
  (natToBytesBE 32 w.1, pointToBytes (pmul w.2 p256_G))

/-- `pase.Crypto_pB(random_source, w0, L)`: the ephemeral scalar `y` is the
value `random_source.randbelow(NIST256p.order)` returned (modelled as the
oracle argument `y`, whose contract is `y < p256_n`), and
`Y = y * NIST256p.generator + w0 * N`. -/
def Crypto_pB (y : Nat) (w0 : Nat) (L : Point) : Nat × Point :=
  (y, padd (pmul y p256_G) (pmul w0 Npoint))

/-- The source's `elements` list in `Crypto_Transcript`. -/
def transcriptElements (context pA pB Z V w0 : List Nat) : List (List Nat) :=
  [context, [], [], M_enc, N_enc, pA, pB, Z, V, w0]

/-- Python `tt[offset:offset+len(data)] = data` on a bytearray. -/
def writeSlice (buf : List Nat) (off : Nat) (data : List Nat) : List Nat :=
  buf.take off ++ data ++ buf.drop (off + data.length)

/-- `pase.Crypto_Transcript(context, pA, pB, Z, V, w0)`: allocate a zeroed
buffer of the total length, then for each element `struct.pack_into("<Q",
tt, offset, len(e))` followed by the element itself. -/
def Crypto_Transcript (context pA pB Z V w0 : List Nat) : List Nat :=
  let elements := transcriptElements context pA pB Z V w0
  let total_length := elements.foldl (fun acc e => acc + (e.length + 8)) 0
  (elements.foldl
    (fun st e =>
      let tt := writeSlice st.1 st.2 (natToBytesLE 8 e.length)
      let off := st.2 + 8
      let tt2 := writeSlice tt off e
      (tt2, off + e.length))
    ((List.replicate total_length 0, 0) : List Nat × Nat)).1

/-- `pase.KDF(salt, key, info)` forwards to `crypto.KDF(key, salt, info,
HASH_LEN_BITS)`.  Modelled from the spec: `crypto.py` is not under `src/`;
the `None` salt `Crypto_P2` passes is the empty salt of §4.4 step 6 (under
RFC 5869 / HMAC zero-padding the two coincide). -/
def KDF (KDFf : List Nat → List Nat → List Nat → Nat → List Nat)
    (salt : Option (List Nat)) (key info : List Nat) : List Nat :=
  KDFf key (salt.getD []) info HASH_LEN_BITS

/-- The ASCII bytes of `b"ConfirmationKeys"`. -/
def confirmationKeysInfo : List Nat :=
  [67, 111, 110, 102, 105, 114, 109, 97, 116, 105, 111, 110, 75, 101, 121, 115]

/-- The ASCII bytes of `b"SessionKeys"`. -/
def sessionKeysInfo : List Nat :=
  [83, 101, 115, 115, 105, 111, 110, 75, 101, 121, 115]

/-- `pase.Crypto_P2(tt, pA, pB)`, returning `(cA, cB, Ke)`.  `Hash`,
`KDFf` and `HMAC` are the abstract SHA-256 / HKDF / HMAC primitives of
`circuitmatter.crypto`. -/
def Crypto_P2 (Hash : List Nat → List Nat)
    (KDFf : List Nat → List Nat → List Nat → Nat → List Nat)
    (HMAC : List Nat → List Nat → List Nat)
    (tt pA pB : List Nat) : List Nat × List Nat × List Nat :=
  let KaKe := Hash tt
  let Ka := KaKe.take (HASH_LEN_BYTES / 2)
  let Ke := KaKe.drop (HASH_LEN_BYTES / 2)
  let KcAKcB := KDF KDFf none Ka confirmationKeysInfo
  let KcA := KcAKcB.take (HASH_LEN_BYTES / 2)
  let KcB := KcAKcB.drop (HASH_LEN_BYTES / 2)
  (HMAC KcA pB, HMAC KcB pA, Ke)

/-- The key material `compute_session_keys` installs on the secure session
context (the AEAD contexts are initialized from `i2r_key` / `r2i_key` and
are not part of this model). -/
structure SessionKeys where
  i2r_key : List Nat
  r2i_key : List Nat
  attestation_challenge : List Nat
  deriving DecidableEq, Repr

/-- `pase.compute_session_keys(Ke, ...)`: one `crypto.KDF(Ke, b"",
b"SessionKeys", 3 * SYMMETRIC_KEY_LENGTH_BITS)` output, sliced at
`[:16]`, `[16:32]` and `[32:48]`. -/
def compute_session_keys
    (KDFf : List Nat → List Nat → List Nat → Nat → List Nat)
    (Ke : List Nat) : SessionKeys :=
  let keys := KDFf Ke [] sessionKeysInfo (3 * SYMMETRIC_KEY_LENGTH_BITS)
  { i2r_key := keys.take SYMMETRIC_KEY_LENGTH_BYTES
    r2i_key := (keys.drop SYMMETRIC_KEY_LENGTH_BYTES).take SYMMETRIC_KEY_LENGTH_BYTES
    attestation_challenge :=
      (keys.drop (2 * SYMMETRIC_KEY_LENGTH_BYTES)).take SYMMETRIC_KEY_LENGTH_BYTES }

/-- `pase.compute_verification(random_source, pake1, pake2, context,
verifier)`: split the verifier into `w0` (big-endian) and `L`, run
`Crypto_pB` (its `randbelow` draw is the oracle argument `y`), encode
`pake2.pB = Y.to_bytes("uncompressed")`, decode `X` from `pake1.pA`,
compute `Z = h * y * (X + (-(w0 * M)))` and `V = h * y * L`, assemble the
transcript and run `Crypto_P2`.  Returns `(pB, cB, cA, Ke)` — the fields
written to `pake2` plus the returned pair; `none` models any raise on the
way, in source order: a malformed `L`, an unencodable (identity) `Y`, a
malformed `pA`, then an unencodable `Z` or `V`. -/
def compute_verification (Hash : List Nat → List Nat)
    (KDFf : List Nat → List Nat → List Nat → Nat → List Nat)
    (HMAC : List Nat → List Nat → List Nat)
    (y : Nat) (pA : List Nat) (context : List Nat) (verifier : List Nat) :
    Option (List Nat × List Nat × List Nat × List Nat) :=
  let w0bytes := verifier.take GROUP_SIZE_BYTES
  match decodePoint (verifier.drop GROUP_SIZE_BYTES) with
  | none => none
  | some L =>
    let w0 := bytesToNatBE w0bytes
    let yY := Crypto_pB y w0 (some L)
    match pointToBytes yY.2 with
    | none => none
    | some pB =>
      match decodePoint pA with
      | none => none
      | some X =>
        let Z := pmul (p256_h * y) (padd (some X) (pneg (pmul w0 Mpoint)))
        let V := pmul (p256_h * y) (some L)
        match pointToBytes Z, pointToBytes V with
        | some Zb, some Vb =>
          let tt := Crypto_Transcript context pA pB Zb Vb (natToBytesBE 32 w0)
          let r := Crypto_P2 Hash KDFf HMAC tt pA pB
          some (pB, r.2.1, r.1, r.2.2)
        | _, _ => none

end Pase

/-! ## `cm_ecdsa/rfc6979.py`

`hmac.new(k, v, hash_func).digest()` is the abstract keyed-hash parameter
`hmacF : key → message → digest` with digest size `holen`, exactly as
`hash_func` is a caller-supplied parameter in the source. -/

namespace Rfc6979

/-- `rfc6979.bits2int(data, qlen)`.  `x = int(hexlify(data), 16)` raises
`ValueError` when `data` is empty (`int(b'', 16)` has no digits to parse),
modelled `none`; the hexlification of any non-empty byte string is a valid
hex literal. -/
def bits2int (data : List Nat) (qlen : Nat) : Option Nat :=
  if data = [] then none
  else
    let x := bytesToNatBE data
    let l := data.length * 8
    some (if qlen < l then x >>> (l - qlen) else x)

/-- Modelled from the spec: `cm_ecdsa/util.py` is not under `src/`.
`util.orderlen(order)` is the byte length of `order` (§3: scalars are
"fixed-width big-endian byte string[s] ... (length = baselen)"). -/
def orderlen (order : Nat) : Nat := (bitLength order + 7) / 8

/-- Modelled from the spec: `util.number_to_string(num, order)` is the
fixed-width big-endian encoding of `num` on `orderlen order` bytes
(§4.3 step 1: "big-endian private scalar (fixed width)"). -/
def number_to_string (num order : Nat) : List Nat :=
  natToBytesBE (orderlen order) num

/-- Modelled from the spec: `util.number_to_string_crop(num, order)`
encodes big-endian and keeps the first `orderlen order` bytes; for
`num < order` (the only use here) this is the fixed-width encoding. -/
def number_to_string_crop (num order : Nat) : List Nat :=
  natToBytesBE (orderlen order) num

/-- `rfc6979.bits2octets(data, order)`; propagates the `ValueError` of
`bits2int` on empty `data`. -/
def bits2octets (data : List Nat) (order : Nat) : Option (List Nat) :=
  (bits2int data (bitLength order)).map fun z1 =>
    if z1 < order then number_to_string_crop z1 order
    else number_to_string_crop (z1 - order) order

/-- The inner `while len(t) < rolen` loop of step H2, returning the filled
`t` together with the last `v`; fuel `rolen` suffices when the digest is
non-empty, since `t` grows by `holen ≥ 1` bytes per round. -/
def tLoop (hmacF : List Nat → List Nat → List Nat) (k : List Nat)
    (rolen : Nat) : Nat → List Nat → List Nat → List Nat × List Nat
  | 0, v, t => (t, v)
  | f + 1, v, t =>
    if t.length < rolen then
      let v' := hmacF k v
      tLoop hmacF k rolen f v' (t ++ v')
    else (t, v)

/-- The outer `while True` candidate loop (steps H1–H3 plus the reseed):
produce a candidate, return it if it is in `[1, order)` and `retry_gen`
good candidates have already been skipped, otherwise reseed `K, V` with
the `0x00` marker and continue.  `none` means no value is returned: either
the fuel (number of candidate rounds) ran out, or `bits2int` was handed an
empty `t` (`rolen = 0`, where the source raises `ValueError`). -/
def genLoop (order qlen rolen : Nat) (hmacF : List Nat → List Nat → List Nat) :
    Nat → List Nat → List Nat → Nat → Option Nat
  | 0, _, _, _ => none
  | f + 1, k, v, retry_gen =>
    let tv := tLoop hmacF k rolen rolen v []
    match bits2int tv.1 qlen with
    | none => none
    | some secret =>
      let k' := hmacF k (tv.2 ++ [0])
      let v' := hmacF k' tv.2
      if 1 ≤ secret ∧ secret < order then
        if retry_gen = 0 then some secret
        else genLoop order qlen rolen hmacF f k' v' (retry_gen - 1)
      else genLoop order qlen rolen hmacF f k' v' retry_gen

/-- `rfc6979.generate_k(order, secexp, hash_func, data, retry_gen,
extra_entropy)`: derive the input octets `bx`, initialize `V`/`K`, run the
two keyed rounds D–G, then the candidate loop with `fuel` rounds.  An
empty `data` makes `bits2octets` raise `ValueError` while `bx` is built,
before any candidate is produced: `none`. -/
def generate_k (hmacF : List Nat → List Nat → List Nat) (holen fuel : Nat)
    (order secexp : Nat) (data : List Nat) (retry_gen : Nat)
    (extra_entropy : List Nat) : Option Nat :=
  let qlen := bitLength order
  let rolen := (qlen + 7) / 8
  match bits2octets data order with
  | none => none
  | some b2o =>
    let bx := number_to_string secexp order ++ b2o ++ extra_entropy
    let v0 := List.replicate holen 1
    let k0 := List.replicate holen 0
    let k1 := hmacF k0 (v0 ++ 0 :: bx)
    let v1 := hmacF k1 v0
    let k2 := hmacF k1 (v1 ++ 1 :: bx)
    let v2 := hmacF k2 v1
    genLoop order qlen rolen hmacF fuel k2 v2 retry_gen

/-- The deterministic candidate sequence of `generate_k` from state
`(k, v)`: the `n`-th entry is the value `bits2int(t, qlen)` produced by the
`n`-th round of the `while True` loop (valid or not; `none` marks a round
whose `bits2int` gets an empty `t`). -/
def candList (qlen rolen : Nat) (hmacF : List Nat → List Nat → List Nat) :
    Nat → List Nat → List Nat → List (Option Nat)
  | 0, _, _ => []
  | f + 1, k, v =>
    let tv := tLoop hmacF k rolen rolen v []
    let secret := bits2int tv.1 qlen
    let k' := hmacF k (tv.2 ++ [0])
    let v' := hmacF k' tv.2
    secret :: candList qlen rolen hmacF f k' v'

/-- The valid candidates — those in `[1, order)` — in sequence order, up
to the first error round (after which the loop can produce nothing). -/
def validCandidates (order qlen rolen : Nat)
    (hmacF : List Nat → List Nat → List Nat) (fuel : Nat)
    (k v : List Nat) : List Nat :=
  ((((candList qlen rolen hmacF fuel k v).takeWhile
      fun c => c.isSome).filterMap id).filter
    fun s => decide (1 ≤ s ∧ s < order))

end Rfc6979

/-! ## Proof scaffolding: the quadratic extension `GF(p)[x]/(x² - bx + a)`

The general branch of `square_root_mod_prime` exponentiates inside the
ring `GF(p)[x]/(x² - bx + a)` (Cipolla's algorithm).  `Fp2 p a b` is that
ring, with an element `c0 + c1·x` represented by its coefficient pair. -/

/-- An element of `GF(p)[x]/(x² - bx + a)`: the pair `(c0, c1)`
representing `c0 + c1·x`. -/
@[ext]
structure Fp2 (p : ℕ) (a b : ZMod p) where
  c0 : ZMod p
  c1 : ZMod p
  deriving DecidableEq

namespace Fp2

variable {p : ℕ} {a b : ZMod p}

instance : Zero (Fp2 p a b) := ⟨⟨0, 0⟩⟩

instance : One (Fp2 p a b) := ⟨⟨1, 0⟩⟩

instance : Add (Fp2 p a b) := ⟨fun z w => ⟨z.c0 + w.c0, z.c1 + w.c1⟩⟩

instance : Neg (Fp2 p a b) := ⟨fun z => ⟨-z.c0, -z.c1⟩⟩

instance : Mul (Fp2 p a b) :=
  ⟨fun z w => ⟨z.c0 * w.c0 - a * (z.c1 * w.c1),
               z.c0 * w.c1 + z.c1 * w.c0 + b * (z.c1 * w.c1)⟩⟩

@[simp] theorem zero_c0 : (0 : Fp2 p a b).c0 = 0 := rfl

@[simp] theorem zero_c1 : (0 : Fp2 p a b).c1 = 0 := rfl

@[simp] theorem one_c0 : (1 : Fp2 p a b).c0 = 1 := rfl

@[simp] theorem one_c1 : (1 : Fp2 p a b).c1 = 0 := rfl

@[simp] theorem add_c0 (z w : Fp2 p a b) : (z + w).c0 = z.c0 + w.c0 := rfl

@[simp] theorem add_c1 (z w : Fp2 p a b) : (z + w).c1 = z.c1 + w.c1 := rfl

@[simp] theorem neg_c0 (z : Fp2 p a b) : (-z).c0 = -z.c0 := rfl

@[simp] theorem neg_c1 (z : Fp2 p a b) : (-z).c1 = -z.c1 := rfl

@[simp] theorem mul_c0 (z w : Fp2 p a b) :
    (z * w).c0 = z.c0 * w.c0 - a * (z.c1 * w.c1) := rfl

@[simp] theorem mul_c1 (z w : Fp2 p a b) :
    (z * w).c1 = z.c0 * w.c1 + z.c1 * w.c0 + b * (z.c1 * w.c1) := rfl

instance commRing : CommRing (Fp2 p a b) := by
  refine
  { add := (· + ·)
    zero := (0 : Fp2 p a b)
    sub := fun z w => z + -w
    neg := Neg.neg
    nsmul := @nsmulRec (Fp2 p a b) ⟨0⟩ ⟨(· + ·)⟩
    zsmul := @zsmulRec (Fp2 p a b) ⟨0⟩ ⟨(· + ·)⟩ ⟨Neg.neg⟩
      (@nsmulRec (Fp2 p a b) ⟨0⟩ ⟨(· + ·)⟩)
    mul := (· * ·)
    one := (1 : Fp2 p a b)
    npow := @npowRec (Fp2 p a b) ⟨1⟩ ⟨(· * ·)⟩
    add_assoc := ?_
    zero_add := ?_
    add_zero := ?_
    neg_add_cancel := ?_
    add_comm := ?_
    left_distrib := ?_
    right_distrib := ?_
    zero_mul := ?_
    mul_zero := ?_
    mul_assoc := ?_
    one_mul := ?_
    mul_one := ?_
    mul_comm := ?_ } <;>
  intros <;>
  ext <;>
  simp <;>
  ring

@[simp] theorem sub_c0 (z w : Fp2 p a b) : (z - w).c0 = z.c0 - w.c0 := by
  show (z + -w).c0 = z.c0 - w.c0
  rw [add_c0, neg_c0, sub_eq_add_neg]

@[simp] theorem sub_c1 (z w : Fp2 p a b) : (z - w).c1 = z.c1 - w.c1 := by
  show (z + -w).c1 = z.c1 - w.c1
  rw [add_c1, neg_c1, sub_eq_add_neg]

/-- The scalar embedding `GF(p) → GF(p)[x]/(x² - bx + a)`. -/
def C : ZMod p →+* Fp2 p a b where
  toFun z := ⟨z, 0⟩
  map_one' := rfl
  map_mul' z w := by ext <;> simp
  map_zero' := rfl
  map_add' z w := by ext <;> simp

@[simp] theorem C_c0 (z : ZMod p) : (C z : Fp2 p a b).c0 = z := rfl

@[simp] theorem C_c1 (z : ZMod p) : (C z : Fp2 p a b).c1 = 0 := rfl

theorem C_injective : Function.Injective (C : ZMod p → Fp2 p a b) := by
  intro z w h
  have := congrArg c0 h
  simpa using this

/-- The residue class of `x`. -/
def gen : Fp2 p a b := ⟨0, 1⟩

@[simp] theorem gen_c0 : (gen : Fp2 p a b).c0 = 0 := rfl

@[simp] theorem gen_c1 : (gen : Fp2 p a b).c1 = 1 := rfl

theorem gen_sq : (gen : Fp2 p a b) * gen = C b * gen - C a := by
  ext <;> simp

theorem decompose (z : Fp2 p a b) : z = C z.c0 + C z.c1 * gen := by
  ext <;> simp

/-- Conjugation `c0 + c1·x ↦ (c0 + b·c1) - c1·x`, the second root of the
quadratic. -/
def conj : Fp2 p a b →+* Fp2 p a b where
  toFun z := ⟨z.c0 + b * z.c1, -z.c1⟩
  map_one' := by ext <;> simp
  map_mul' z w := by ext <;> simp <;> ring
  map_zero' := by ext <;> simp
  map_add' z w := by ext <;> simp <;> ring

/-- The norm form of the extension. -/
def norm (z : Fp2 p a b) : ZMod p :=
  z.c0 * z.c0 + b * (z.c0 * z.c1) + a * (z.c1 * z.c1)

theorem mul_conj (z : Fp2 p a b) : z * conj z = C (norm z) := by
  ext <;> simp [conj, norm] <;> ring

theorem norm_mul (z w : Fp2 p a b) : norm (z * w) = norm z * norm w := by
  apply C_injective
  rw [← mul_conj, map_mul, map_mul, mul_mul_mul_comm, mul_conj, mul_conj, ← map_mul]

/-- The equivalence with coefficient pairs (for counting). -/
def equivProd : Fp2 p a b ≃ ZMod p × ZMod p where
  toFun z := (z.c0, z.c1)
  invFun w := ⟨w.1, w.2⟩
  left_inv z := rfl
  right_inv w := rfl

instance [NeZero p] : Fintype (Fp2 p a b) := Fintype.ofEquiv _ equivProd.symm

end Fp2

/-- The element of `Fp2 p a b` that a coefficient list of
`polynomial_exp_mod` denotes (`c0 + c1·x`, missing coefficients zero). -/
def evalFp (p : ℕ) (a b : ZMod p) (l : List Int) : Fp2 p a b :=
  ⟨((l.getD 0 0 : Int) : ZMod p), ((l.getD 1 0 : Int) : ZMod p)⟩

/-! ## Helper lemmas -/

theorem natToBytesLE_succ (w v : Nat) :
    natToBytesLE (w + 1) v = v % 256 :: natToBytesLE w (v / 256) := by
  unfold natToBytesLE
  rw [List.range_succ_eq_map, List.map_cons, List.map_map]
  simp only [pow_zero, Nat.div_one]
  congr 1
  apply List.map_congr_left
  intro i _
  simp only [Function.comp_apply]
  rw [Nat.div_div_eq_div_mul, ← pow_succ']

theorem natToBytesLE_length (w v : Nat) : (natToBytesLE w v).length = w := by
  simp [natToBytesLE]

theorem natToBytesLE_bytes_lt (w v : Nat) : ∀ d ∈ natToBytesLE w v, d < 256 := by
  intro d hd
  simp only [natToBytesLE, List.mem_map] at hd
  obtain ⟨i, _, rfl⟩ := hd
  exact Nat.mod_lt _ (by norm_num)

theorem ofDigits_natToBytesLE (w v : Nat) :
    Nat.ofDigits 256 (natToBytesLE w v) = v % 256 ^ w := by
  induction w generalizing v with
  | zero => simp [natToBytesLE, Nat.mod_one]
  | succ w ih =>
    rw [natToBytesLE_succ, Nat.ofDigits_cons, ih, pow_succ,
      mul_comm (256 ^ w) 256, Nat.mod_mul]

theorem take_two_append {α : Type} (a b c : List α) :
    (a ++ (b ++ c)).take (a.length + b.length) = a ++ b := by
  rw [← List.append_assoc, ← List.length_append, List.take_left]

theorem drop_two_append {α : Type} (a b c : List α) (n : Nat) :
    (a ++ (b ++ c)).drop (a.length + b.length + n) = c.drop n := by
  rw [← List.append_assoc, ← List.length_append, List.drop_append]

theorem foldl_add_length (es : List (List Nat)) (a : Nat) :
    es.foldl (fun acc e => acc + (e.length + 8)) a
      = a + (es.map fun e => 8 + e.length).sum := by
  induction es generalizing a with
  | nil => simp
  | cons e es ih => simp [ih, List.foldl_cons]; omega

/-- The buffer-filling loop of `Crypto_Transcript` writes exactly the
length-prefixed concatenation of the elements. -/
theorem transcript_fill (es : List (List Nat)) :
    ∀ (buf : List Nat) (off : Nat),
      buf.length = off + (es.map fun e => 8 + e.length).sum →
      es.foldl
        (fun (st : List Nat × Nat) e =>
          let tt := Pase.writeSlice st.1 st.2 (natToBytesLE 8 e.length)
          let o := st.2 + 8
          let tt2 := Pase.writeSlice tt o e
          (tt2, o + e.length))
        (buf, off)
      = (buf.take off ++ (es.map fun e => natToBytesLE 8 e.length ++ e).flatten,
         off + (es.map fun e => 8 + e.length).sum) := by
  induction es with
  | nil =>
    intro buf off h
    simp only [List.map_nil, List.sum_nil, Nat.add_zero] at h ⊢
    rw [List.foldl_nil, ← h, List.take_length, List.flatten_nil, List.append_nil]
  | cons e es ih =>
    intro buf off h
    simp only [List.map_cons, List.sum_cons] at h
    have hoff : off ≤ buf.length := by omega
    have htk : (buf.take off).length = off := by rw [List.length_take]; omega
    have h8 : (natToBytesLE 8 e.length).length = 8 := natToBytesLE_length _ _
    have hb1 : Pase.writeSlice buf off (natToBytesLE 8 e.length)
        = buf.take off ++ (natToBytesLE 8 e.length ++ buf.drop (off + 8)) := by
      simp [Pase.writeSlice, h8]
    have hb2 : Pase.writeSlice
          (buf.take off ++ (natToBytesLE 8 e.length ++ buf.drop (off + 8)))
          (off + 8) e
        = buf.take off
            ++ (natToBytesLE 8 e.length ++ (e ++ buf.drop (off + 8 + e.length))) := by
      unfold Pase.writeSlice
      have e1 : (buf.take off
            ++ (natToBytesLE 8 e.length ++ buf.drop (off + 8))).take (off + 8)
          = buf.take off ++ natToBytesLE 8 e.length := by
        have hx : off + 8 = (buf.take off).length + (natToBytesLE 8 e.length).length := by
          rw [htk, h8]
        rw [hx, take_two_append]
      have e2 : (buf.take off
            ++ (natToBytesLE 8 e.length ++ buf.drop (off + 8))).drop (off + 8 + e.length)
          = buf.drop (off + 8 + e.length) := by
        have hx : off + 8 + e.length
            = (buf.take off).length + (natToBytesLE 8 e.length).length + e.length := by
          rw [htk, h8]
        rw [hx, drop_two_append, List.drop_drop, htk, h8]
      rw [e1, e2]
      simp [List.append_assoc]
    rw [List.foldl_cons]
    simp only [hb1, hb2]
    have hlen2 : (buf.take off
          ++ (natToBytesLE 8 e.length ++ (e ++ buf.drop (off + 8 + e.length)))).length
        = (off + 8 + e.length) + (es.map fun x => 8 + x.length).sum := by
      simp only [List.length_append, htk, h8, List.length_drop]
      omega
    rw [ih _ _ hlen2]
    apply Prod.ext
    · have hgrp : buf.take off
            ++ (natToBytesLE 8 e.length ++ (e ++ buf.drop (off + 8 + e.length)))
          = (buf.take off ++ (natToBytesLE 8 e.length ++ e))
            ++ buf.drop (off + 8 + e.length) := by
        simp [List.append_assoc]
      have hl3 : (buf.take off ++ (natToBytesLE 8 e.length ++ e)).length
          = off + 8 + e.length := by
        simp only [List.length_append, htk, h8]
        omega
      show (buf.take off
            ++ (natToBytesLE 8 e.length ++ (e ++ buf.drop (off + 8 + e.length)))).take
              (off + 8 + e.length)
          ++ (es.map fun x => natToBytesLE 8 x.length ++ x).flatten = _
      rw [hgrp, ← hl3, List.take_left]
      simp [List.append_assoc]
    · show off + 8 + e.length + (es.map fun x => 8 + x.length).sum = _
      simp only [List.map_cons, List.sum_cons]
      omega

/-! ## C1 -/

/-- C1: `Crypto_Transcript` is exactly the concatenation, in the fixed
order `[context, empty, empty, M_enc, N_enc, pA, pB, Z, V, w0]`, of each
element preceded by its own length on 8 little-endian bytes — and nothing
else; its total length is the sum of `8 + length` over the elements, and
each 8-byte prefix is the little-endian encoding of the element's length
(exactly, whenever the length fits 64 bits). -/
theorem Crypto_Transcript_spec (context pA pB Z V w0 : List Nat) :
    Pase.Crypto_Transcript context pA pB Z V w0 =
      ((Pase.transcriptElements context pA pB Z V w0).map
        (fun e => natToBytesLE 8 e.length ++ e)).flatten ∧
    (Pase.Crypto_Transcript context pA pB Z V w0).length =
      ((Pase.transcriptElements context pA pB Z V w0).map
        (fun e => 8 + e.length)).sum ∧
    ∀ e ∈ Pase.transcriptElements context pA pB Z V w0,
      (natToBytesLE 8 e.length).length = 8 ∧
      (∀ d ∈ natToBytesLE 8 e.length, d < 256) ∧
      (e.length < 2 ^ 64 →
        Nat.ofDigits 256 (natToBytesLE 8 e.length) = e.length) := by
  have hmain :
      Pase.Crypto_Transcript context pA pB Z V w0 =
        ((Pase.transcriptElements context pA pB Z V w0).map
          (fun e => natToBytesLE 8 e.length ++ e)).flatten := by
    simp only [Pase.Crypto_Transcript]
    rw [foldl_add_length]
    rw [transcript_fill _ _ 0 (by simp)]
    simp
  refine ⟨hmain, ?_, ?_⟩
  · rw [hmain, List.length_flatten]
    congr 1
    rw [List.map_map]
    apply List.map_congr_left
    intro e _
    simp [natToBytesLE_length]
  · intro e _
    refine ⟨natToBytesLE_length 8 e.length, natToBytesLE_bytes_lt 8 e.length, ?_⟩
    intro hlt
    rw [ofDigits_natToBytesLE]
    exact Nat.mod_eq_of_lt (by exact_mod_cast hlt)

/-- Witness for C1 at a concrete input. -/
theorem Crypto_Transcript_spec_witness :
    Pase.Crypto_Transcript [1, 2] [3] [4] [5] [6] [7] =
      ((Pase.transcriptElements [1, 2] [3] [4] [5] [6] [7]).map
        (fun e => natToBytesLE 8 e.length ++ e)).flatten :=
  (Crypto_Transcript_spec [1, 2] [3] [4] [5] [6] [7]).1

/-! ## C8 -/

/-- The extended-Euclid loop invariant: if `lm·a ≡ low` and `hm·a ≡ high`
modulo `m`, with `0 < low < high` coprime and enough fuel, the loop returns
a multiplier congruent to an inverse of `a`. -/
theorem inverse_mod_loop_invariant (m a : Int) :
    ∀ fuel : Nat, ∀ lm low hm high : Int,
      0 < low → low < high → low < (fuel : Int) → IsCoprime low high →
      lm * a ≡ low [ZMOD m] → hm * a ≡ high [ZMOD m] →
      Numbertheory.inverse_mod_loop fuel lm low hm high * a ≡ 1 [ZMOD m] := by
  intro fuel
  induction fuel with
  | zero =>
    intro lm low hm high h1 _ h3 _ _ _
    exfalso
    push_cast at h3
    omega
  | succ f ih =>
    intro lm low hm high h1 h2 h3 hco hlm hhm
    unfold Numbertheory.inverse_mod_loop
    by_cases hl : 1 < low
    · rw [if_pos hl]
      have hlow' : high - low * (high / low) = high % low := by
        rw [Int.emod_def]
      have h1' : 0 ≤ high % low := Int.emod_nonneg high (by omega)
      have h2' : high % low < low := Int.emod_lt_of_pos high (by omega)
      have hco' : IsCoprime (high - low * (high / low)) low := by
        have h := hco.symm.add_mul_left_left (-(high / low))
        have heq : high + low * -(high / low) = high - low * (high / low) := by ring
        rwa [heq] at h
      have hne : high - low * (high / low) ≠ 0 := by
        intro h0
        rw [h0] at hco'
        rcases Int.isUnit_iff.mp (isCoprime_zero_left.mp hco') with h | h <;> omega
      rw [hlow'] at hne
      apply ih (hm - lm * (high / low)) (high - low * (high / low)) lm low
      · rw [hlow']
        omega
      · rw [hlow']
        omega
      · rw [hlow']
        push_cast at h3 ⊢
        omega
      · exact hco'
      · have h := hhm.sub (hlm.mul_left (high / low))
        have e1 : (hm - lm * (high / low)) * a
            = hm * a - high / low * (lm * a) := by ring
        have e2 : high - low * (high / low)
            = high - high / low * low := by ring
        rw [e1, e2]
        exact h
      · exact hlm
    · rw [if_neg hl]
      have hle : low = 1 := by omega
      rw [hle] at hlm
      exact hlm

/-- C8: for every modulus `m > 1` and `0 < a < m` with `gcd(a, m) = 1`,
`inverse_mod a m` returns a `v` with `0 ≤ v < m` and `v * a ≡ 1 (mod m)`;
and `inverse_mod 0 m = 0`. -/
theorem inverse_mod_spec (a m : Int) (hm : 1 < m) (ha0 : 0 < a) (ham : a < m)
    (hg : Int.gcd a m = 1) :
    (0 ≤ Numbertheory.inverse_mod a m ∧ Numbertheory.inverse_mod a m < m ∧
      Numbertheory.inverse_mod a m * a % m = 1) ∧
    Numbertheory.inverse_mod 0 m = 0 := by
  have hae : a % m = a := Int.emod_eq_of_lt (le_of_lt ha0) ham
  have hdef : Numbertheory.inverse_mod a m
      = Numbertheory.inverse_mod_loop ((a % m).toNat + 1) 1 (a % m) 0 m % m := by
    simp only [Numbertheory.inverse_mod, if_neg (show a ≠ 0 by omega)]
  have hL : Numbertheory.inverse_mod_loop ((a % m).toNat + 1) 1 (a % m) 0 m * a
      ≡ 1 [ZMOD m] := by
    apply inverse_mod_loop_invariant m a _ 1 (a % m) 0 m
    · omega
    · omega
    · push_cast
      rw [hae, Int.toNat_of_nonneg (le_of_lt ha0)]
      omega
    · rw [hae]
      exact Int.isCoprime_iff_gcd_eq_one.mpr hg
    · rw [hae, one_mul]
    · have : (0 : Int) * a = 0 := by ring
      rw [this]
      show (0 : Int) % m = m % m
      rw [Int.emod_self]
      simp
  refine ⟨⟨?_, ?_, ?_⟩, ?_⟩
  · rw [hdef]
    exact Int.emod_nonneg _ (by omega)
  · rw [hdef]
    exact Int.emod_lt_of_pos _ (by omega)
  · rw [hdef]
    have hmm : Numbertheory.inverse_mod_loop ((a % m).toNat + 1) 1 (a % m) 0 m % m
        ≡ Numbertheory.inverse_mod_loop ((a % m).toNat + 1) 1 (a % m) 0 m [ZMOD m] :=
      Int.emod_emod_of_dvd _ dvd_rfl
    have h := (hmm.mul_right a).trans hL
    have h1m : (1 : Int) % m = 1 := Int.emod_eq_of_lt (by omega) (by omega)
    calc Numbertheory.inverse_mod_loop ((a % m).toNat + 1) 1 (a % m) 0 m % m * a % m
        = 1 % m := h
      _ = 1 := h1m
  · simp [Numbertheory.inverse_mod]

/-- Witness for C8 at `a = 3`, `m = 7`. -/
theorem inverse_mod_spec_witness :
    ((0 ≤ Numbertheory.inverse_mod 3 7 ∧ Numbertheory.inverse_mod 3 7 < 7 ∧
      Numbertheory.inverse_mod 3 7 * 3 % 7 = 1) ∧
    Numbertheory.inverse_mod 0 7 = 0) ∧ Numbertheory.inverse_mod 3 7 = 5 :=
  ⟨inverse_mod_spec 3 7 (by norm_num) (by norm_num) (by norm_num) (by decide),
   by decide⟩

/-! ## C3 -/

/-- C3: `Crypto_P2` computes `Ka‖Ke = Hash(tt)` split at the midpoint,
`KcA‖KcB = KDF(salt=empty, key=Ka, info="ConfirmationKeys",
bits=hash-length)` split at the midpoint, and returns
`(cA, cB, Ke) = (HMAC(KcA, pB), HMAC(KcB, pA), Ke)` — for any hash/KDF/HMAC
primitives of the stated output lengths. -/
theorem Crypto_P2_spec (Hash : List Nat → List Nat)
    (KDFf : List Nat → List Nat → List Nat → Nat → List Nat)
    (HMAC : List Nat → List Nat → List Nat) (tt pA pB : List Nat)
    (hHash : (Hash tt).length = Pase.HASH_LEN_BYTES)
    (hKDF : ∀ key info, (KDFf key [] info Pase.HASH_LEN_BITS).length
      = Pase.HASH_LEN_BYTES) :
    ∃ Ka Ke KcA KcB : List Nat,
      Hash tt = Ka ++ Ke ∧
      Ka.length = Pase.HASH_LEN_BYTES / 2 ∧ Ke.length = Pase.HASH_LEN_BYTES / 2 ∧
      KDFf Ka [] Pase.confirmationKeysInfo Pase.HASH_LEN_BITS = KcA ++ KcB ∧
      KcA.length = Pase.HASH_LEN_BYTES / 2 ∧ KcB.length = Pase.HASH_LEN_BYTES / 2 ∧
      Pase.Crypto_P2 Hash KDFf HMAC tt pA pB = (HMAC KcA pB, HMAC KcB pA, Ke) := by
  refine ⟨(Hash tt).take (Pase.HASH_LEN_BYTES / 2), (Hash tt).drop (Pase.HASH_LEN_BYTES / 2),
    (KDFf ((Hash tt).take (Pase.HASH_LEN_BYTES / 2)) [] Pase.confirmationKeysInfo
      Pase.HASH_LEN_BITS).take (Pase.HASH_LEN_BYTES / 2),
    (KDFf ((Hash tt).take (Pase.HASH_LEN_BYTES / 2)) [] Pase.confirmationKeysInfo
      Pase.HASH_LEN_BITS).drop (Pase.HASH_LEN_BYTES / 2),
    (List.take_append_drop _ _).symm, ?_, ?_,
    (List.take_append_drop _ _).symm, ?_, ?_, rfl⟩
  · rw [List.length_take, hHash]
    decide
  · rw [List.length_drop, hHash]
    decide
  · rw [List.length_take, hKDF]
    decide
  · rw [List.length_drop, hKDF]
    decide

/-- Witness for C3 with concrete dummy primitives. -/
theorem Crypto_P2_spec_witness :
    ∃ Ka Ke KcA KcB : List Nat,
      List.replicate 32 (0 : Nat) = Ka ++ Ke ∧
      Ka.length = Pase.HASH_LEN_BYTES / 2 ∧ Ke.length = Pase.HASH_LEN_BYTES / 2 ∧
      List.replicate 32 (1 : Nat) = KcA ++ KcB ∧
      KcA.length = Pase.HASH_LEN_BYTES / 2 ∧ KcB.length = Pase.HASH_LEN_BYTES / 2 ∧
      Pase.Crypto_P2 (fun _ => List.replicate 32 0)
        (fun _ _ _ _ => List.replicate 32 1) (fun k d => k ++ d) [] [7] [9]
        = (KcA ++ [9], KcB ++ [7], Ke) :=
  Crypto_P2_spec (fun _ => List.replicate 32 0)
    (fun _ _ _ _ => List.replicate 32 1) (fun k d => k ++ d) [] [7] [9]
    (by decide) (fun _ _ => by simp [Pase.HASH_LEN_BYTES])

/-! ## C4 -/

/-- C4: `w0` and `w1` are the two halves of the PBKDF2-HMAC-SHA256 output
on the 4-byte little-endian passcode with the given salt and iterations and
output length `2 × (group-size + 8)` bytes, each half decoded big-endian
and reduced modulo the curve order; and the stored verifier point is
`L = w1 · Generator` (alongside `w0` big-endian on 32 bytes). -/
theorem pbkdf2_verifier_spec
    (pbkdf2 : List Nat → List Nat → Nat → Nat → List Nat)
    (passcode : Nat) (salt : List Nat) (iterations : Nat)
    (hlen : (pbkdf2 (natToBytesLE 4 passcode) salt iterations
        (Pase.W_SIZE_BYTES * 2)).length = Pase.W_SIZE_BYTES * 2) :
    ∃ half1 half2 : List Nat,
      pbkdf2 (natToBytesLE 4 passcode) salt iterations (Pase.W_SIZE_BYTES * 2)
        = half1 ++ half2 ∧
      half1.length = Pase.GROUP_SIZE_BYTES + 8 ∧
      half2.length = Pase.GROUP_SIZE_BYTES + 8 ∧
      Pase._pbkdf2 pbkdf2 passcode salt iterations
        = (bytesToNatBE half1 % Pase.p256_n, bytesToNatBE half2 % Pase.p256_n) ∧
      Pase.verifier_values pbkdf2 passcode salt iterations
        = (natToBytesBE 32 (bytesToNatBE half1 % Pase.p256_n),
           Pase.pointToBytes
             (Pase.pmul (bytesToNatBE half2 % Pase.p256_n) Pase.p256_G)) := by
  refine ⟨(pbkdf2 (natToBytesLE 4 passcode) salt iterations
      (Pase.W_SIZE_BYTES * 2)).take Pase.W_SIZE_BYTES,
    (pbkdf2 (natToBytesLE 4 passcode) salt iterations
      (Pase.W_SIZE_BYTES * 2)).drop Pase.W_SIZE_BYTES,
    (List.take_append_drop _ _).symm, ?_, ?_, rfl, rfl⟩
  · rw [List.length_take, hlen]
    decide
  · rw [List.length_drop, hlen]
    decide

/-- Witness for C4 with a concrete dummy PBKDF2. -/
theorem pbkdf2_verifier_spec_witness :
    ∃ half1 half2 : List Nat,
      List.replicate 80 (0 : Nat) = half1 ++ half2 ∧
      half1.length = Pase.GROUP_SIZE_BYTES + 8 ∧
      half2.length = Pase.GROUP_SIZE_BYTES + 8 ∧
      Pase._pbkdf2 (fun _ _ _ n => List.replicate n 0) 20202021 [1, 2] 1000
        = (bytesToNatBE half1 % Pase.p256_n, bytesToNatBE half2 % Pase.p256_n) ∧
      Pase.verifier_values (fun _ _ _ n => List.replicate n 0) 20202021 [1, 2] 1000
        = (natToBytesBE 32 (bytesToNatBE half1 % Pase.p256_n),
           Pase.pointToBytes
             (Pase.pmul (bytesToNatBE half2 % Pase.p256_n) Pase.p256_G)) :=
  pbkdf2_verifier_spec (fun _ _ _ n => List.replicate n 0) 20202021 [1, 2] 1000
    (by decide)

/-! ## C5 -/

/-- C5: the session-key scheduler derives
`KDF(Ke, salt=empty, info="SessionKeys", bits=3×symmetric-key-length)` and
splits the output, in order, into the initiator→responder key, the
responder→initiator key and the attestation challenge — three disjoint
consecutive 16-byte slices that reassemble the whole KDF output. -/
theorem compute_session_keys_spec
    (KDFf : List Nat → List Nat → List Nat → Nat → List Nat) (Ke : List Nat)
    (hlen : (KDFf Ke [] Pase.sessionKeysInfo
        (3 * Pase.SYMMETRIC_KEY_LENGTH_BITS)).length
      = 3 * Pase.SYMMETRIC_KEY_LENGTH_BYTES) :
    (Pase.compute_session_keys KDFf Ke).i2r_key
        ++ (Pase.compute_session_keys KDFf Ke).r2i_key
        ++ (Pase.compute_session_keys KDFf Ke).attestation_challenge
      = KDFf Ke [] Pase.sessionKeysInfo (3 * Pase.SYMMETRIC_KEY_LENGTH_BITS) ∧
    (Pase.compute_session_keys KDFf Ke).i2r_key
      = (KDFf Ke [] Pase.sessionKeysInfo
          (3 * Pase.SYMMETRIC_KEY_LENGTH_BITS)).take Pase.SYMMETRIC_KEY_LENGTH_BYTES ∧
    (Pase.compute_session_keys KDFf Ke).i2r_key.length
      = Pase.SYMMETRIC_KEY_LENGTH_BYTES ∧
    (Pase.compute_session_keys KDFf Ke).r2i_key.length
      = Pase.SYMMETRIC_KEY_LENGTH_BYTES ∧
    (Pase.compute_session_keys KDFf Ke).attestation_challenge.length
      = Pase.SYMMETRIC_KEY_LENGTH_BYTES := by
  have hk : (KDFf Ke [] Pase.sessionKeysInfo
      (3 * Pase.SYMMETRIC_KEY_LENGTH_BITS)).length = 48 := by rw [hlen]; decide
  have hi2r : (Pase.compute_session_keys KDFf Ke).i2r_key
      = (KDFf Ke [] Pase.sessionKeysInfo (3 * Pase.SYMMETRIC_KEY_LENGTH_BITS)).take 16 :=
    rfl
  have hr2i : (Pase.compute_session_keys KDFf Ke).r2i_key
      = ((KDFf Ke [] Pase.sessionKeysInfo
          (3 * Pase.SYMMETRIC_KEY_LENGTH_BITS)).drop 16).take 16 := rfl
  have hatt : (Pase.compute_session_keys KDFf Ke).attestation_challenge
      = ((KDFf Ke [] Pase.sessionKeysInfo
          (3 * Pase.SYMMETRIC_KEY_LENGTH_BITS)).drop 32).take 16 := rfl
  set keys := KDFf Ke [] Pase.sessionKeysInfo (3 * Pase.SYMMETRIC_KEY_LENGTH_BITS)
  refine ⟨?_, hi2r, ?_, ?_, ?_⟩
  · rw [hi2r, hr2i, hatt]
    have h3 : (keys.drop 32).take 16 = keys.drop 32 := by
      have hlen32 : (keys.drop 32).length = 16 := by
        rw [List.length_drop, hk]
      calc (keys.drop 32).take 16 = (keys.drop 32).take (keys.drop 32).length := by
            rw [hlen32]
        _ = keys.drop 32 := List.take_length _
    have h2 : (keys.drop 16).take 16 ++ keys.drop 32 = keys.drop 16 := by
      have hd : keys.drop 32 = (keys.drop 16).drop 16 := by
        rw [List.drop_drop]
      rw [hd]
      exact List.take_append_drop _ _
    rw [h3, List.append_assoc, h2]
    exact List.take_append_drop _ _
  · rw [hi2r, List.length_take, hk]
    decide
  · rw [hr2i, List.length_take, List.length_drop, hk]
    decide
  · rw [hatt, List.length_take, List.length_drop, hk]
    decide

/-- Witness for C5 with a concrete dummy KDF. -/
theorem compute_session_keys_spec_witness :
    (Pase.compute_session_keys (fun _ _ _ n => List.replicate (n / 8) 2) []).i2r_key
        ++ (Pase.compute_session_keys (fun _ _ _ n => List.replicate (n / 8) 2) []).r2i_key
        ++ (Pase.compute_session_keys
            (fun _ _ _ n => List.replicate (n / 8) 2) []).attestation_challenge
      = (fun _ _ _ n => List.replicate (n / 8) (2 : Nat)) ([] : List Nat) ([] : List Nat)
          Pase.sessionKeysInfo (3 * Pase.SYMMETRIC_KEY_LENGTH_BITS) :=
  (compute_session_keys_spec (fun _ _ _ n => List.replicate (n / 8) 2) []
    (by decide)).1

/-! ## C2 -/

set_option maxRecDepth 8192 in
/-- The SPAKE2+ constant `M` is a finite curve point, so its uncompressed
encoding succeeds; `M_enc` is that encoding. -/
theorem M_enc_some : Pase.pointToBytes Pase.Mpoint = some Pase.M_enc := by
  decide

set_option maxRecDepth 8192 in
/-- The SPAKE2+ constant `N` is a finite curve point, so its uncompressed
encoding succeeds; `N_enc` is that encoding. -/
theorem N_enc_some : Pase.pointToBytes Pase.Npoint = some Pase.N_enc := by
  decide

/-- C2: on the verifier side, for a stored verifier `w0 ‖ L` and a prover
share `pA` decoding to `X` (in any of the three supported encodings), with
the `randbelow` draw `y` (contract `y < order`): the exposed share is
`Y = y·G + w0·N` encoded uncompressed as `pB`, and the shared points
entering the transcript are `Z = cofactor · y · (X + (−(w0·M)))` (negation
plus addition substituting for subtraction) and `V = cofactor · y · L`;
when any of `Y`, `Z`, `V` is the identity, its `to_bytes` raise makes the
call produce nothing. -/
theorem compute_verification_spec (Hash : List Nat → List Nat)
    (KDFf : List Nat → List Nat → List Nat → Nat → List Nat)
    (HMAC : List Nat → List Nat → List Nat)
    (y : Nat) (pA context : List Nat) (w0b Lb : List Nat) (L X : Nat × Nat)
    (hw0 : w0b.length = Pase.GROUP_SIZE_BYTES)
    (hy : y < Pase.p256_n)
    (hL : Pase.decodePoint Lb = some L)
    (hX : Pase.decodePoint pA = some X) :
    ∃ (Y Z V : Pase.Point),
      Y = Pase.padd (Pase.pmul y Pase.p256_G)
        (Pase.pmul (bytesToNatBE w0b) Pase.Npoint) ∧
      Z = Pase.pmul (Pase.p256_h * y)
        (Pase.padd (some X) (Pase.pneg (Pase.pmul (bytesToNatBE w0b) Pase.Mpoint))) ∧
      V = Pase.pmul (Pase.p256_h * y) (some L) ∧
      (∀ pBb Zb Vb : List Nat,
        Pase.pointToBytes Y = some pBb →
        Pase.pointToBytes Z = some Zb →
        Pase.pointToBytes V = some Vb →
        Pase.compute_verification Hash KDFf HMAC y pA context (w0b ++ Lb)
          = some (pBb,
              (Pase.Crypto_P2 Hash KDFf HMAC
                (Pase.Crypto_Transcript context pA pBb Zb Vb
                  (natToBytesBE 32 (bytesToNatBE w0b))) pA pBb).2.1,
              (Pase.Crypto_P2 Hash KDFf HMAC
                (Pase.Crypto_Transcript context pA pBb Zb Vb
                  (natToBytesBE 32 (bytesToNatBE w0b))) pA pBb).1,
              (Pase.Crypto_P2 Hash KDFf HMAC
                (Pase.Crypto_Transcript context pA pBb Zb Vb
                  (natToBytesBE 32 (bytesToNatBE w0b))) pA pBb).2.2)) ∧
      ((Pase.pointToBytes Y = none ∨ Pase.pointToBytes Z = none ∨
          Pase.pointToBytes V = none) →
        Pase.compute_verification Hash KDFf HMAC y pA context (w0b ++ Lb)
          = none) := by
  have htake : (w0b ++ Lb).take Pase.GROUP_SIZE_BYTES = w0b := by
    rw [← hw0, List.take_left]
  have hdrop : (w0b ++ Lb).drop Pase.GROUP_SIZE_BYTES = Lb := by
    rw [← hw0, List.drop_left]
  refine ⟨_, _, _, rfl, rfl, rfl, ?_, ?_⟩
  · intro pBb Zb Vb hpB hZb hVb
    simp only [Pase.compute_verification, htake, hdrop, hL, hX, Pase.Crypto_pB,
      hpB, hZb, hVb]
  · intro herr
    cases hY : Pase.pointToBytes (Pase.padd (Pase.pmul y Pase.p256_G)
        (Pase.pmul (bytesToNatBE w0b) Pase.Npoint)) with
    | none =>
      simp only [Pase.compute_verification, htake, hdrop, hL, Pase.Crypto_pB, hY]
    | some pBb =>
      cases hZ : Pase.pointToBytes (Pase.pmul (Pase.p256_h * y)
          (Pase.padd (some X) (Pase.pneg (Pase.pmul (bytesToNatBE w0b)
            Pase.Mpoint)))) with
      | none =>
        simp only [Pase.compute_verification, htake, hdrop, hL, hX,
          Pase.Crypto_pB, hY, hZ]
      | some Zb =>
        cases hV : Pase.pointToBytes (Pase.pmul (Pase.p256_h * y) (some L)) with
        | none =>
          simp only [Pase.compute_verification, htake, hdrop, hL, hX,
            Pase.Crypto_pB, hY, hZ, hV]
        | some Vb =>
          rcases herr with h | h | h
          · rw [hY] at h
            exact Option.noConfusion h
          · rw [hZ] at h
            exact Option.noConfusion h
          · rw [hV] at h
            exact Option.noConfusion h

/-- Witness for C2: the stored point and the prover share are the encoded
generator, `w0` bytes all zero, `y = 1`. -/
theorem compute_verification_spec_witness :
    ∃ (Y Z V : Pase.Point),
      Y = Pase.padd (Pase.pmul 1 Pase.p256_G)
        (Pase.pmul (bytesToNatBE (List.replicate 32 0)) Pase.Npoint) ∧
      Z = Pase.pmul (Pase.p256_h * 1)
        (Pase.padd (some (Pase.p256_Gx, Pase.p256_Gy))
          (Pase.pneg (Pase.pmul (bytesToNatBE (List.replicate 32 0))
            Pase.Mpoint))) ∧
      V = Pase.pmul (Pase.p256_h * 1) (some (Pase.p256_Gx, Pase.p256_Gy)) ∧
      (∀ pBb Zb Vb : List Nat,
        Pase.pointToBytes Y = some pBb →
        Pase.pointToBytes Z = some Zb →
        Pase.pointToBytes V = some Vb →
        Pase.compute_verification (fun _ => []) (fun _ _ _ _ => [])
            (fun _ _ => []) 1 ((Pase.pointToBytes Pase.p256_G).getD []) [9]
            (List.replicate 32 0 ++ (Pase.pointToBytes Pase.p256_G).getD [])
          = some (pBb,
              (Pase.Crypto_P2 (fun _ => []) (fun _ _ _ _ => []) (fun _ _ => [])
                (Pase.Crypto_Transcript [9]
                  ((Pase.pointToBytes Pase.p256_G).getD []) pBb Zb Vb
                  (natToBytesBE 32 (bytesToNatBE (List.replicate 32 0))))
                ((Pase.pointToBytes Pase.p256_G).getD []) pBb).2.1,
              (Pase.Crypto_P2 (fun _ => []) (fun _ _ _ _ => []) (fun _ _ => [])
                (Pase.Crypto_Transcript [9]
                  ((Pase.pointToBytes Pase.p256_G).getD []) pBb Zb Vb
                  (natToBytesBE 32 (bytesToNatBE (List.replicate 32 0))))
                ((Pase.pointToBytes Pase.p256_G).getD []) pBb).1,
              (Pase.Crypto_P2 (fun _ => []) (fun _ _ _ _ => []) (fun _ _ => [])
                (Pase.Crypto_Transcript [9]
                  ((Pase.pointToBytes Pase.p256_G).getD []) pBb Zb Vb
                  (natToBytesBE 32 (bytesToNatBE (List.replicate 32 0))))
                ((Pase.pointToBytes Pase.p256_G).getD []) pBb).2.2)) ∧
      ((Pase.pointToBytes Y = none ∨ Pase.pointToBytes Z = none ∨
          Pase.pointToBytes V = none) →
        Pase.compute_verification (fun _ => []) (fun _ _ _ _ => [])
            (fun _ _ => []) 1 ((Pase.pointToBytes Pase.p256_G).getD []) [9]
            (List.replicate 32 0 ++ (Pase.pointToBytes Pase.p256_G).getD [])
          = none) :=
  compute_verification_spec (fun _ => []) (fun _ _ _ _ => []) (fun _ _ => [])
    1 ((Pase.pointToBytes Pase.p256_G).getD []) [9] (List.replicate 32 0)
    ((Pase.pointToBytes Pase.p256_G).getD []) (Pase.p256_Gx, Pase.p256_Gy)
    (Pase.p256_Gx, Pase.p256_Gy) (by decide) (by decide) (by decide) (by decide)


/-! ## C6 -/

theorem genLoop_step_err (order qlen rolen : Nat)
    (hmacF : List Nat → List Nat → List Nat) (f : Nat) (k v : List Nat)
    (r : Nat)
    (hc : Rfc6979.bits2int (Rfc6979.tLoop hmacF k rolen rolen v []).1 qlen
      = none) :
    Rfc6979.genLoop order qlen rolen hmacF (f + 1) k v r = none := by
  rw [Rfc6979.genLoop, hc]

theorem genLoop_step_ok (order qlen rolen : Nat)
    (hmacF : List Nat → List Nat → List Nat) (f : Nat) (k v : List Nat)
    (r s : Nat)
    (hc : Rfc6979.bits2int (Rfc6979.tLoop hmacF k rolen rolen v []).1 qlen
      = some s) :
    Rfc6979.genLoop order qlen rolen hmacF (f + 1) k v r
      = (if 1 ≤ s ∧ s < order then
          if r = 0 then some s
          else Rfc6979.genLoop order qlen rolen hmacF f
            (hmacF k ((Rfc6979.tLoop hmacF k rolen rolen v []).2 ++ [0]))
            (hmacF (hmacF k ((Rfc6979.tLoop hmacF k rolen rolen v []).2 ++ [0]))
              (Rfc6979.tLoop hmacF k rolen rolen v []).2) (r - 1)
        else Rfc6979.genLoop order qlen rolen hmacF f
            (hmacF k ((Rfc6979.tLoop hmacF k rolen rolen v []).2 ++ [0]))
            (hmacF (hmacF k ((Rfc6979.tLoop hmacF k rolen rolen v []).2 ++ [0]))
              (Rfc6979.tLoop hmacF k rolen rolen v []).2) r) := by
  rw [Rfc6979.genLoop, hc]

theorem candList_step (qlen rolen : Nat)
    (hmacF : List Nat → List Nat → List Nat) (f : Nat) (k v : List Nat) :
    Rfc6979.candList qlen rolen hmacF (f + 1) k v
      = Rfc6979.bits2int (Rfc6979.tLoop hmacF k rolen rolen v []).1 qlen
        :: Rfc6979.candList qlen rolen hmacF f
            (hmacF k ((Rfc6979.tLoop hmacF k rolen rolen v []).2 ++ [0]))
            (hmacF (hmacF k ((Rfc6979.tLoop hmacF k rolen rolen v []).2 ++ [0]))
              (Rfc6979.tLoop hmacF k rolen rolen v []).2) := by
  rw [Rfc6979.candList]

theorem validCandidates_err (order qlen rolen : Nat)
    (hmacF : List Nat → List Nat → List Nat) (f : Nat) (k v : List Nat)
    (hc : Rfc6979.bits2int (Rfc6979.tLoop hmacF k rolen rolen v []).1 qlen
      = none) :
    Rfc6979.validCandidates order qlen rolen hmacF (f + 1) k v = [] := by
  rw [Rfc6979.validCandidates, candList_step, hc, List.takeWhile_cons]
  rfl

theorem validCandidates_ok (order qlen rolen : Nat)
    (hmacF : List Nat → List Nat → List Nat) (f : Nat) (k v : List Nat)
    (s : Nat)
    (hc : Rfc6979.bits2int (Rfc6979.tLoop hmacF k rolen rolen v []).1 qlen
      = some s) :
    Rfc6979.validCandidates order qlen rolen hmacF (f + 1) k v
      = (if 1 ≤ s ∧ s < order then
          s :: Rfc6979.validCandidates order qlen rolen hmacF f
            (hmacF k ((Rfc6979.tLoop hmacF k rolen rolen v []).2 ++ [0]))
            (hmacF (hmacF k ((Rfc6979.tLoop hmacF k rolen rolen v []).2 ++ [0]))
              (Rfc6979.tLoop hmacF k rolen rolen v []).2)
        else Rfc6979.validCandidates order qlen rolen hmacF f
            (hmacF k ((Rfc6979.tLoop hmacF k rolen rolen v []).2 ++ [0]))
            (hmacF (hmacF k ((Rfc6979.tLoop hmacF k rolen rolen v []).2 ++ [0]))
              (Rfc6979.tLoop hmacF k rolen rolen v []).2)) := by
  rw [Rfc6979.validCandidates, candList_step, hc, List.takeWhile_cons]
  rw [if_pos (show (some s).isSome = true from rfl),
    List.filterMap_cons_some (show id (some s) = some s from rfl),
    List.filter_cons]
  by_cases hval : 1 ≤ s ∧ s < order
  · rw [if_pos (by simpa using hval), if_pos hval, Rfc6979.validCandidates]
  · rw [if_neg (by simpa using hval), if_neg hval, Rfc6979.validCandidates]

/-- The candidate loop of `generate_k` returns exactly the
`retry_gen`-indexed element of the valid-candidate sequence. -/
theorem genLoop_eq_validCandidates (order qlen rolen : Nat)
    (hmacF : List Nat → List Nat → List Nat) :
    ∀ (fuel : Nat) (k v : List Nat) (retry_gen : Nat),
      Rfc6979.genLoop order qlen rolen hmacF fuel k v retry_gen
        = (Rfc6979.validCandidates order qlen rolen hmacF fuel k v)[retry_gen]? := by
  intro fuel
  induction fuel with
  | zero =>
    intro k v retry_gen
    simp [Rfc6979.genLoop, Rfc6979.validCandidates, Rfc6979.candList]
  | succ f ih =>
    intro k v retry_gen
    cases hc : Rfc6979.bits2int (Rfc6979.tLoop hmacF k rolen rolen v []).1 qlen
      with
    | none =>
      rw [genLoop_step_err order qlen rolen hmacF f k v retry_gen hc,
        validCandidates_err order qlen rolen hmacF f k v hc]
      rfl
    | some s =>
      rw [genLoop_step_ok order qlen rolen hmacF f k v retry_gen s hc,
        validCandidates_ok order qlen rolen hmacF f k v s hc]
      by_cases hval : 1 ≤ s ∧ s < order
      · rw [if_pos hval, if_pos hval]
        rcases retry_gen with _ | r
        · rw [if_pos rfl, List.getElem?_cons_zero]
        · rw [if_neg (Nat.succ_ne_zero r), List.getElem?_cons_succ]
          exact ih _ _ r
      · rw [if_neg hval, if_neg hval]
        exact ih _ _ retry_gen

/-- C6 (amended): with empty `data`, `generate_k` raises before producing
any candidate (the `ValueError` of `int(b'', 16)` inside `bits2octets`),
for every `retry_gen`.  With non-empty `data` it is a pure function of
`(order, secexp, hash_func, data, retry_gen, extra_entropy)` — two calls
with identical inputs give identical results, and one deterministic
candidate sequence (independent of `retry_gen`) underlies all calls;
`retry_gen = r` returns the `(r+1)`-th valid candidate of that sequence;
every returned scalar lies in `[1, order − 1]`; and `retry_gen = 1`
differs from `retry_gen = 0` whenever the first two valid candidates are
distinct. -/
theorem generate_k_spec (hmacF : List Nat → List Nat → List Nat)
    (holen fuel order secexp : Nat) (data extra_entropy : List Nat) :
    (data = [] → ∀ retry_gen,
      Rfc6979.generate_k hmacF holen fuel order secexp data retry_gen
        extra_entropy = none) ∧
    (data ≠ [] → ∃ k v : List Nat,
      (∀ retry_gen,
        Rfc6979.generate_k hmacF holen fuel order secexp data retry_gen
            extra_entropy
          = (Rfc6979.validCandidates order (bitLength order)
              ((bitLength order + 7) / 8) hmacF fuel k v)[retry_gen]?) ∧
      (∀ retry_gen s,
        Rfc6979.generate_k hmacF holen fuel order secexp data retry_gen
            extra_entropy
          = some s → 1 ≤ s ∧ s < order) ∧
      (∀ s0 s1,
        Rfc6979.generate_k hmacF holen fuel order secexp data 0 extra_entropy
          = some s0 →
        Rfc6979.generate_k hmacF holen fuel order secexp data 1 extra_entropy
          = some s1 →
        (Rfc6979.validCandidates order (bitLength order)
            ((bitLength order + 7) / 8) hmacF fuel k v)[0]?
          ≠ (Rfc6979.validCandidates order (bitLength order)
              ((bitLength order + 7) / 8) hmacF fuel k v)[1]? →
        s0 ≠ s1)) := by
  constructor
  · intro hdata retry_gen
    subst hdata
    rfl
  · intro hdata
    obtain ⟨b2o, hb2o⟩ : ∃ b2o, Rfc6979.bits2octets data order = some b2o := by
      rw [Rfc6979.bits2octets, Rfc6979.bits2int, if_neg hdata]
      exact ⟨_, rfl⟩
    obtain ⟨k2, v2, hgen⟩ :
        ∃ k2 v2 : List Nat, ∀ r,
          Rfc6979.generate_k hmacF holen fuel order secexp data r extra_entropy
            = Rfc6979.genLoop order (bitLength order)
                ((bitLength order + 7) / 8) hmacF fuel k2 v2 r :=
      ⟨_, _, fun r => by rw [Rfc6979.generate_k, hb2o]⟩
    have hchar : ∀ r,
        Rfc6979.generate_k hmacF holen fuel order secexp data r extra_entropy
          = (Rfc6979.validCandidates order (bitLength order)
              ((bitLength order + 7) / 8) hmacF fuel k2 v2)[r]? := by
      intro r
      rw [hgen r, genLoop_eq_validCandidates]
    refine ⟨k2, v2, hchar, ?_, ?_⟩
    · intro retry_gen s hs
      rw [hchar retry_gen] at hs
      have hmem := List.getElem?_mem hs
      rw [Rfc6979.validCandidates, List.mem_filter] at hmem
      have := hmem.2
      simp only [decide_eq_true_eq] at this
      exact this
    · intro s0 s1 h0 h1 hne hss
      apply hne
      rw [← hchar 0, ← hchar 1, h0, h1, hss]

/-- Counterexample for C6 as stated: with the one-byte message
`data = b"\x01"` and a legitimate (constant) keyed hash, every candidate
equals 2, so `retry_gen = 1` returns the same scalar as `retry_gen = 0` —
the "distinct" part of the claim fails. -/
theorem generate_k_retry_counterexample :
    Rfc6979.generate_k (fun _ _ => [64]) 1 3 5 1 [1] 0 []
      = Rfc6979.generate_k (fun _ _ => [64]) 1 3 5 1 [1] 1 [] ∧
    Rfc6979.generate_k (fun _ _ => [64]) 1 3 5 1 [1] 0 [] = some 2 := by decide

/-- Witness for C6's amended theorem at the concrete instance `order = 5`,
`secexp = 1`, `data = b"\x01"`, constant keyed hash. -/
theorem generate_k_spec_instance :
    ∃ k v : List Nat,
      (∀ retry_gen,
        Rfc6979.generate_k (fun _ _ => [64]) 1 3 5 1 [1] retry_gen []
          = (Rfc6979.validCandidates 5 (bitLength 5) ((bitLength 5 + 7) / 8)
              (fun _ _ => [64]) 3 k v)[retry_gen]?) ∧
      (∀ retry_gen s,
        Rfc6979.generate_k (fun _ _ => [64]) 1 3 5 1 [1] retry_gen []
          = some s → 1 ≤ s ∧ s < 5) ∧
      (∀ s0 s1,
        Rfc6979.generate_k (fun _ _ => [64]) 1 3 5 1 [1] 0 [] = some s0 →
        Rfc6979.generate_k (fun _ _ => [64]) 1 3 5 1 [1] 1 [] = some s1 →
        (Rfc6979.validCandidates 5 (bitLength 5) ((bitLength 5 + 7) / 8)
            (fun _ _ => [64]) 3 k v)[0]?
          ≠ (Rfc6979.validCandidates 5 (bitLength 5) ((bitLength 5 + 7) / 8)
              (fun _ _ => [64]) 3 k v)[1]? →
        s0 ≠ s1) :=
  (generate_k_spec (fun _ _ => [64]) 1 3 5 1 [1] []).2 (by decide)


/-! ## C9 -/

/-- The schedule loop returns the start value or one of the table values. -/
theorem schedLoop_mem (table : List (Nat × Nat)) :
    ∀ b t, Numbertheory.schedLoop table b t = t ∨
      Numbertheory.schedLoop table b t ∈ table.map Prod.snd := by
  induction table with
  | nil =>
    intro b t
    left
    rfl
  | cons p rest ih =>
    intro b t
    rcases p with ⟨k, tt⟩
    show (if b < k then t else Numbertheory.schedLoop rest b tt) = t ∨
      (if b < k then t else Numbertheory.schedLoop rest b tt)
        ∈ ((k, tt) :: rest).map Prod.snd
    by_cases hbk : b < k
    · rw [if_pos hbk]
      left
      rfl
    · rw [if_neg hbk]
      right
      rcases ih b tt with h | h
      · rw [h]
        simp
      · simp only [List.map_cons, List.mem_cons]
        right
        exact h

/-- For a table with values below the start value and pairwise
nonincreasing, the schedule is antitone in the bit length. -/
theorem schedLoop_anti (table : List (Nat × Nat)) :
    ∀ (t b1 b2 : Nat), b1 ≤ b2 →
      (∀ p ∈ table, p.2 ≤ t) →
      List.Pairwise (fun p q : Nat × Nat => q.2 ≤ p.2) table →
      Numbertheory.schedLoop table b2 t ≤ Numbertheory.schedLoop table b1 t := by
  induction table with
  | nil =>
    intro t b1 b2 _ _ _
    exact le_refl t
  | cons p rest ih =>
    rcases p with ⟨k, tt⟩
    intro t b1 b2 hb hle hpw
    show (if b2 < k then t else Numbertheory.schedLoop rest b2 tt)
        ≤ (if b1 < k then t else Numbertheory.schedLoop rest b1 tt)
    have htt : tt ≤ t := hle (k, tt) (List.mem_cons_self _ _)
    have hrest : ∀ q ∈ rest, q.2 ≤ tt := (List.pairwise_cons.mp hpw).1
    by_cases h2 : b2 < k
    · rw [if_pos h2, if_pos (by omega)]
    · rw [if_neg h2]
      by_cases h1 : b1 < k
      · rw [if_pos h1]
        rcases schedLoop_mem rest b2 tt with h | h
        · rw [h]
          exact htt
        · obtain ⟨q, hq, hval⟩ := List.mem_map.mp h
          exact le_trans (hval ▸ hrest q hq) htt
      · rw [if_neg h1]
        exact ih tt b1 b2 hb hrest (List.pairwise_cons.mp hpw).2

/-- C9 (code bug): the behaviour the claim describes never runs.  For
every `n` beyond the small-prime table — including `2047`, within the
claim's scope — `is_prime` reaches `if gcd(n, 2310) != 1:` (line 295), and
`gcd` is an undefined name in `numbertheory.py`, so the call raises
`NameError` (`none`); within the table the function only tests
membership. -/
theorem is_prime_name_error (n : Nat) :
    (Numbertheory.smallprimes.getLastD 0 < n →
      Numbertheory.is_prime n = none) ∧
    (n ≤ Numbertheory.smallprimes.getLastD 0 →
      Numbertheory.is_prime n = some (Numbertheory.smallprimes.contains n)) := by
  constructor
  · intro h
    rw [Numbertheory.is_prime, if_neg (by omega)]
  · intro h
    rw [Numbertheory.is_prime, if_pos h]

/-- Witness for C9's code-bug theorem at `n = 2047` (which the original
claim expected to fail trial division by the table prime `23`) and at the
in-table `n = 1229`. -/
theorem is_prime_name_error_witness :
    Numbertheory.is_prime 2047 = none ∧
    Numbertheory.is_prime 1229 = some (Numbertheory.smallprimes.contains 1229) :=
  ⟨(is_prime_name_error 2047).1 (by decide),
   (is_prime_name_error 1229).2 (by decide)⟩


/-! ## C10 and the Jacobi-symbol bridge -/

/-- `oddSplit` extracts the odd part: `a = 2 ^ e * a1` with `a1` odd. -/
theorem oddSplit_spec :
    ∀ (fuel a : Nat), 0 < a → a ≤ fuel →
      (Numbertheory.oddSplit fuel a).1 % 2 = 1 ∧
      a = 2 ^ (Numbertheory.oddSplit fuel a).2 * (Numbertheory.oddSplit fuel a).1 := by
  intro fuel
  induction fuel with
  | zero =>
    intro a h0 hf
    omega
  | succ f ih =>
    intro a h0 hf
    rw [Numbertheory.oddSplit]
    by_cases hev : a % 2 = 0 ∧ a ≠ 0
    · rw [if_pos hev]
      have h2 : 0 < a / 2 := by omega
      have hl : a / 2 ≤ f := by omega
      obtain ⟨ho, hs⟩ := ih (a / 2) h2 hl
      refine ⟨ho, ?_⟩
      have : a = 2 * (a / 2) := by omega
      rw [pow_succ]
      calc a = 2 * (a / 2) := this
        _ = 2 * (2 ^ (Numbertheory.oddSplit f (a / 2)).2
              * (Numbertheory.oddSplit f (a / 2)).1) := by rw [← hs]
        _ = 2 ^ (Numbertheory.oddSplit f (a / 2)).2 * 2
              * (Numbertheory.oddSplit f (a / 2)).1 := by ring
    · rw [if_neg hev]
      refine ⟨by omega, by simp⟩

/-- Unfolding of one `jacobi` step for `n ≥ 3` odd, with the `let`
bindings substituted. -/
theorem jacobi_step (f : Nat) (a : Int) (n : Nat) (h3 : ¬ n < 3)
    (he : ¬ n % 2 = 0) :
    Numbertheory.jacobi (f + 1) a n =
      (if (a % (n : Int)).toNat = 0 then some 0
       else if (a % (n : Int)).toNat = 1 then some 1
       else if (Numbertheory.oddSplit (a % (n : Int)).toNat
           (a % (n : Int)).toNat).1 = 1 then
         some (if (Numbertheory.oddSplit (a % (n : Int)).toNat
              (a % (n : Int)).toNat).2 % 2 = 0
            ∨ n % 8 = 1 ∨ n % 8 = 7 then (1 : Int) else -1)
       else
         (Numbertheory.jacobi f
           ((n % (Numbertheory.oddSplit (a % (n : Int)).toNat
              (a % (n : Int)).toNat).1 : Nat) : Int)
           (Numbertheory.oddSplit (a % (n : Int)).toNat
              (a % (n : Int)).toNat).1).map
           (fun j =>
             (if n % 4 = 3 ∧ (Numbertheory.oddSplit (a % (n : Int)).toNat
                  (a % (n : Int)).toNat).1 % 4 = 3 then
                -(if (Numbertheory.oddSplit (a % (n : Int)).toNat
                      (a % (n : Int)).toNat).2 % 2 = 0
                    ∨ n % 8 = 1 ∨ n % 8 = 7 then (1 : Int) else -1)
              else
                (if (Numbertheory.oddSplit (a % (n : Int)).toNat
                      (a % (n : Int)).toNat).2 % 2 = 0
                    ∨ n % 8 = 1 ∨ n % 8 = 7 then (1 : Int) else -1)) * j)) := by
  rw [Numbertheory.jacobi, if_neg h3, if_neg he]

/-- The embedded `jacobi` computes the mathematical Jacobi symbol whenever
the fuel is at least the (odd, `≥ 3`) modulus. -/
theorem jacobi_eq_jacobiSym :
    ∀ (fuel n : Nat) (a : Int), n % 2 = 1 → 3 ≤ n → n ≤ fuel →
      Numbertheory.jacobi fuel a n = some (jacobiSym a n) := by
  intro fuel
  induction fuel with
  | zero =>
    intro n a _ h3 hf
    omega
  | succ f ih =>
    intro n a hodd h3 hf
    rw [jacobi_step f a n (by omega) (by omega)]
    have hn0 : ((n : Int)) ≠ 0 := by
      exact_mod_cast (by omega : n ≠ 0)
    have hcast : (((a % (n : Int)).toNat : Int)) = a % n :=
      Int.toNat_of_nonneg (Int.emod_nonneg a hn0)
    have hJmod : jacobiSym a n = jacobiSym ((a % (n : Int)).toNat : Int) n := by
      rw [jacobiSym.mod_left a n, hcast]
    set x := (a % (n : Int)).toNat with hx
    by_cases h0 : x = 0
    · rw [if_pos h0, hJmod, h0]
      rw [show ((0 : Nat) : Int) = 0 from rfl, jacobiSym.zero_left (by omega)]
    · rw [if_neg h0]
      by_cases h1 : x = 1
      · rw [if_pos h1, hJmod, h1]
        rw [show ((1 : Nat) : Int) = 1 from rfl, jacobiSym.one_left]
      · rw [if_neg h1]
        obtain ⟨hodd1, hsplit⟩ := oddSplit_spec x x (by omega) (le_refl x)
        set a1 := (Numbertheory.oddSplit x x).1 with ha1def
        set e := (Numbertheory.oddSplit x x).2 with hedef
        have hxn : x < n := by
          have := Int.emod_lt_of_pos a (show (0 : Int) < n by exact_mod_cast
            (by omega : 0 < n))
          omega
        have hJsplit : jacobiSym (x : Int) n
            = jacobiSym 2 n ^ e * jacobiSym (a1 : Int) n := by
          rw [hsplit]
          push_cast
          rw [jacobiSym.mul_left, jacobiSym.pow_left]
        have hχ : jacobiSym 2 n = if n % 8 = 1 ∨ n % 8 = 7 then 1 else -1 := by
          rw [jacobiSym.at_two (Nat.odd_iff.mpr hodd), ZMod.χ₈_nat_eq_if_mod_eight,
            if_neg (by omega)]
        have hs : jacobiSym 2 n ^ e
            = (if e % 2 = 0 ∨ n % 8 = 1 ∨ n % 8 = 7 then (1 : Int) else -1) := by
          rw [hχ]
          by_cases h17 : n % 8 = 1 ∨ n % 8 = 7
          · rw [if_pos h17, one_pow, if_pos (Or.inr h17)]
          · rw [if_neg h17]
            by_cases hev : e % 2 = 0
            · rw [if_pos (Or.inl hev), Even.neg_one_pow (Nat.even_iff.mpr hev)]
            · rw [if_neg (by tauto), Odd.neg_one_pow (Nat.odd_iff.mpr (by omega))]
        by_cases ha1 : a1 = 1
        · rw [if_pos ha1]
          congr 1
          rw [hJmod, hJsplit, ha1]
          rw [show ((1 : Nat) : Int) = 1 from rfl, jacobiSym.one_left, mul_one, hs]
        · rw [if_neg ha1]
          have ha1ge3 : 3 ≤ a1 := by omega
          have ha1x : a1 ≤ x := by
            have h2e : 1 ≤ 2 ^ e := Nat.one_le_two_pow
            calc a1 = 1 * a1 := (one_mul a1).symm
              _ ≤ 2 ^ e * a1 := Nat.mul_le_mul_right a1 h2e
              _ = x := hsplit.symm
          rw [ih a1 ((n % a1 : Nat) : Int) hodd1 ha1ge3 (by omega)]
          rw [Option.map_some']
          congr 1
          have hmodrec : jacobiSym ((n % a1 : Nat) : Int) a1
              = jacobiSym (n : Int) a1 := by
            rw [jacobiSym.mod_left (n : Int) a1]
            norm_cast
          have hrecip := jacobiSym.quadratic_reciprocity_if hodd1 hodd
          rw [hJmod, hJsplit, hs, hmodrec]
          by_cases hflip : n % 4 = 3 ∧ a1 % 4 = 3
          · rw [if_pos hflip]
            rw [if_pos (show a1 % 4 = 3 ∧ n % 4 = 3 by tauto)] at hrecip
            rw [← hrecip]
            ring
          · rw [if_neg hflip]
            rw [if_neg (show ¬(a1 % 4 = 3 ∧ n % 4 = 3) by tauto)] at hrecip
            rw [← hrecip]

/-- C10: for every integer `a` and every odd `n ≥ 3`, `jacobi a n`
terminates — fuel `n` suffices, because each recursive call strictly
decreases the (odd, `≥ 3`) modulus — and returns a value in `{-1, 0, 1}`
(namely the Jacobi symbol). -/
theorem jacobi_spec (a : Int) (n : Nat) (hodd : n % 2 = 1) (h3 : 3 ≤ n) :
    ∃ r : Int, (∀ fuel, n ≤ fuel → Numbertheory.jacobi fuel a n = some r) ∧
      (r = -1 ∨ r = 0 ∨ r = 1) := by
  refine ⟨jacobiSym a n, fun fuel hf => jacobi_eq_jacobiSym fuel n a hodd h3 hf, ?_⟩
  rcases jacobiSym.trichotomy a n with h | h | h
  · tauto
  · tauto
  · tauto

/-- Witness for C10 at `a = 7`, `n = 15`. -/
theorem jacobi_spec_witness :
    ∃ r : Int, (∀ fuel, 15 ≤ fuel → Numbertheory.jacobi fuel 7 15 = some r) ∧
      (r = -1 ∨ r = 0 ∨ r = 1) :=
  jacobi_spec 7 15 (by decide) (by decide)

/-! ## C7: the quadratic extension is a domain; Cipolla's identity -/

theorem fp2_norm_zero_imp {p : ℕ} [Fact p.Prime] {a b : ZMod p}
    (hd : ¬IsSquare (b * b - 4 * a)) {z : Fp2 p a b}
    (hz : Fp2.norm z = 0) : z = 0 := by
  by_cases h1 : z.c1 = 0
  · have h00 : z.c0 * z.c0 = 0 := by
      have h := hz
      rw [Fp2.norm, h1] at h
      simpa using h
    have h0 : z.c0 = 0 := by
      rcases mul_eq_zero.mp h00 with h | h <;> exact h
    ext
    · simp [h0]
    · simp [h1]
  · exfalso
    apply hd
    have key : (2 * z.c0 + b * z.c1) ^ 2 = (b * b - 4 * a) * z.c1 ^ 2 := by
      have h4 : (4 : ZMod p) * Fp2.norm z = 0 := by rw [hz]; ring
      rw [Fp2.norm] at h4
      linear_combination h4
    have hz' : z.c0 * z.c0 + b * (z.c0 * z.c1) + a * (z.c1 * z.c1) = 0 := by
      rw [Fp2.norm] at hz
      exact hz
    refine ⟨(2 * z.c0 + b * z.c1) * z.c1⁻¹, ?_⟩
    field_simp
    linear_combination key - 8 * hz' 

theorem fp2_mul_eq_zero_imp {p : ℕ} [Fact p.Prime] {a b : ZMod p}
    (hd : ¬IsSquare (b * b - 4 * a)) {z w : Fp2 p a b}
    (h : z * w = 0) : z = 0 ∨ w = 0 := by
  have hn : Fp2.norm z * Fp2.norm w = 0 := by
    rw [← Fp2.norm_mul, h]
    simp [Fp2.norm]
  rcases mul_eq_zero.mp hn with h' | h'
  · exact Or.inl (fp2_norm_zero_imp hd h')
  · exact Or.inr (fp2_norm_zero_imp hd h')

theorem fp2_natCast_def {p : ℕ} {a b : ZMod p} (n : ℕ) :
    (n : Fp2 p a b) = ⟨(n : ZMod p), 0⟩ := by
  induction n with
  | zero =>
    ext
    · simp
    · simp
  | succ n ih =>
    have h : ((n + 1 : ℕ) : Fp2 p a b) = (n : Fp2 p a b) + 1 := Nat.cast_succ n
    rw [h, ih]
    ext
    · simp
    · simp

instance fp2_charP (p : ℕ) [NeZero p] (a b : ZMod p) : CharP (Fp2 p a b) p :=
  ⟨fun n => by
    rw [fp2_natCast_def]
    constructor
    · intro h
      have h0 := congrArg Fp2.c0 h
      simp only [Fp2.zero_c0] at h0
      exact (ZMod.natCast_zmod_eq_zero_iff_dvd n p).mp h0
    · intro h
      have h0 : ((n : ℕ) : ZMod p) = 0 := (ZMod.natCast_zmod_eq_zero_iff_dvd n p).mpr h
      ext
      · simp [h0]
      · simp⟩

theorem fp2_nontrivial (p : ℕ) [Fact p.Prime] (a b : ZMod p) :
    (0 : Fp2 p a b) ≠ 1 := by
  intro h
  have h0 := congrArg Fp2.c0 h
  simp only [Fp2.zero_c0, Fp2.one_c0] at h0
  exact zero_ne_one h0

/-- Frobenius sends the adjoined root to the conjugate root `b - x` when the
discriminant is a non-residue. -/
theorem fp2_gen_pow_card {p : ℕ} [Fact p.Prime] {a b : ZMod p}
    (hodd : p % 2 = 1) (hd : ¬IsSquare (b * b - 4 * a)) :
    (Fp2.gen : Fp2 p a b) ^ p = Fp2.C b - Fp2.gen := by
  haveI : Nontrivial (Fp2 p a b) := ⟨⟨0, 1, fp2_nontrivial p a b⟩⟩
  haveI : NoZeroDivisors (Fp2 p a b) :=
    ⟨fun {z w} h => fp2_mul_eq_zero_imp hd h⟩
  haveI : IsDomain (Fp2 p a b) := NoZeroDivisors.to_isDomain _
  haveI : NeZero p := ⟨(Fact.out : p.Prime).ne_zero⟩
  have hp3 : 3 ≤ p := by
    have := (Fact.out : p.Prime).two_le
    omega
  set β := (Fp2.gen : Fp2 p a b) ^ p with hβ
  have hgen : (Fp2.gen : Fp2 p a b) * Fp2.gen = Fp2.C b * Fp2.gen - Fp2.C a :=
    Fp2.gen_sq
  have hβsq : β * β = Fp2.C b * β - Fp2.C a := by
    calc β * β = (Fp2.gen * Fp2.gen) ^ p := by rw [mul_pow]
      _ = (Fp2.C b * Fp2.gen - Fp2.C a) ^ p := by rw [hgen]
      _ = (Fp2.C b * Fp2.gen) ^ p - (Fp2.C a) ^ p := sub_pow_char _ _
      _ = Fp2.C (b ^ p) * β - Fp2.C (a ^ p) := by rw [mul_pow, map_pow, map_pow]
      _ = Fp2.C b * β - Fp2.C a := by rw [ZMod.pow_card, ZMod.pow_card]
  have hfactor : (β - Fp2.gen) * (β - (Fp2.C b - Fp2.gen)) = 0 := by
    linear_combination hβsq - hgen
  rcases mul_eq_zero.mp hfactor with h | h
  · exfalso
    have hfix : β = Fp2.gen := by linear_combination h
    -- every element would then be fixed by Frobenius
    have hall : ∀ z : Fp2 p a b, z ^ p = z := by
      intro z
      conv_lhs => rw [Fp2.decompose z]
      rw [add_pow_char, mul_pow, ← map_pow, ← map_pow, ZMod.pow_card,
        ZMod.pow_card, ← hβ, hfix, ← Fp2.decompose]
    -- X^p - X would have p + 1 distinct roots but degree p
    classical
    set q : Polynomial (Fp2 p a b) := Polynomial.X ^ p - Polynomial.X with hq
    have hdeg : q.degree = p := by
      rw [hq]
      rw [Polynomial.degree_sub_eq_left_of_degree_lt]
      · exact Polynomial.degree_X_pow p
      · rw [Polynomial.degree_X_pow, Polynomial.degree_X]
        exact_mod_cast (by omega : 1 < p)
    have hq0 : q ≠ 0 := by
      intro h0
      rw [h0, Polynomial.degree_zero] at hdeg
      exact (by simp : (⊥ : WithBot ℕ) ≠ (p : WithBot ℕ)) hdeg
    have hnat : q.natDegree = p := Polynomial.natDegree_eq_of_degree_eq_some hdeg
    have hroots : ∀ z : Fp2 p a b, z ^ p = z → z ∈ q.roots := by
      intro z hz
      rw [Polynomial.mem_roots hq0]
      simp [hq, Polynomial.IsRoot, hz]
    set s : Finset (Fp2 p a b) :=
      insert Fp2.gen (Finset.univ.image (Fp2.C : ZMod p → Fp2 p a b)) with hs
    have hsub : s ⊆ q.roots.toFinset := by
      intro z hz
      rw [Multiset.mem_toFinset]
      rw [hs, Finset.mem_insert] at hz
      rcases hz with rfl | hz
      · exact hroots _ (hall _)
      · exact hroots _ (hall _)
    have hgen_notmem : Fp2.gen ∉ Finset.univ.image (Fp2.C : ZMod p → Fp2 p a b) := by
      intro hmem
      obtain ⟨z, _, hz⟩ := Finset.mem_image.mp hmem
      have := congrArg Fp2.c1 hz
      simp only [Fp2.C_c1, Fp2.gen_c1] at this
      exact zero_ne_one this
    have hcard : p + 1 ≤ s.card := by
      rw [hs, Finset.card_insert_of_not_mem hgen_notmem,
        Finset.card_image_of_injective _ Fp2.C_injective]
      simp [ZMod.card]
    have hbound : s.card ≤ p := by
      calc s.card ≤ q.roots.toFinset.card := Finset.card_le_card hsub
        _ ≤ Multiset.card q.roots := Multiset.toFinset_card_le _
        _ ≤ q.natDegree := Polynomial.card_roots' q
        _ = p := hnat
    omega
  · linear_combination h

/-- Cipolla's identity: `x^(p+1) = a` in the extension. -/
theorem fp2_gen_pow_succ_card {p : ℕ} [Fact p.Prime] {a b : ZMod p}
    (hodd : p % 2 = 1) (hd : ¬IsSquare (b * b - 4 * a)) :
    (Fp2.gen : Fp2 p a b) ^ (p + 1) = Fp2.C a := by
  rw [pow_succ, fp2_gen_pow_card hodd hd]
  linear_combination - Fp2.gen_sq (p := p) (a := a) (b := b)

/-- The value `x^((p+1)/2)` computed by the general branch is a scalar
square root of `a`. -/
theorem cipolla_root {p : ℕ} [Fact p.Prime] {a b : ZMod p}
    (hodd : p % 2 = 1) (hd : ¬IsSquare (b * b - 4 * a))
    (hsq : IsSquare a) :
    ((Fp2.gen : Fp2 p a b) ^ ((p + 1) / 2)).c1 = 0 ∧
    ((Fp2.gen : Fp2 p a b) ^ ((p + 1) / 2)).c0
      * ((Fp2.gen : Fp2 p a b) ^ ((p + 1) / 2)).c0 = a := by
  haveI : Nontrivial (Fp2 p a b) := ⟨⟨0, 1, fp2_nontrivial p a b⟩⟩
  haveI : NoZeroDivisors (Fp2 p a b) :=
    ⟨fun {z w} h => fp2_mul_eq_zero_imp hd h⟩
  obtain ⟨r, hr⟩ := hsq
  set s := (Fp2.gen : Fp2 p a b) ^ ((p + 1) / 2) with hsdef
  have hs2 : s * s = Fp2.C a := by
    rw [hsdef, ← pow_add]
    have he : (p + 1) / 2 + (p + 1) / 2 = p + 1 := by omega
    rw [he]
    exact fp2_gen_pow_succ_card hodd hd
  have hCa : (Fp2.C a : Fp2 p a b) = Fp2.C r * Fp2.C r := by
    rw [← map_mul, ← hr]
  have hfactor : (s - Fp2.C r) * (s + Fp2.C r) = 0 := by
    linear_combination hs2 + hCa
  rcases mul_eq_zero.mp hfactor with h | h
  · have hse : s = Fp2.C r := by linear_combination h
    constructor
    · rw [hse]
      simp
    · rw [hse]
      simp [← hr]
  · have hse : s = -Fp2.C r := by linear_combination h
    constructor
    · rw [hse]
      simp
    · rw [hse]
      simp only [Fp2.neg_c0, Fp2.C_c0]
      rw [neg_mul_neg, ← hr]

/-! ## C7: the coefficient-list computation agrees with the extension ring -/

theorem reduce_mod_step (f : Nat) (poly polymod : List Int) (p : Nat)
    (h : polymod.length ≤ poly.length) :
    Numbertheory.polynomial_reduce_mod (f + 1) poly polymod p
      = Numbertheory.polynomial_reduce_mod f
          (Numbertheory.reduceStep poly polymod p) polymod p := by
  rw [Numbertheory.polynomial_reduce_mod, if_pos h]

theorem reduce_mod_stop (f : Nat) (poly polymod : List Int) (p : Nat)
    (h : ¬ polymod.length ≤ poly.length) :
    Numbertheory.polynomial_reduce_mod f poly polymod p = poly := by
  cases f with
  | zero => rfl
  | succ f => rw [Numbertheory.polynomial_reduce_mod, if_neg h]

/-- Closed form of the degree-`(2,2)` polynomial product followed by the
quadratic reduction. -/
theorem polymul22 (p : Nat) (x0 x1 y0 y1 a' b' : Int) :
    Numbertheory.polynomial_multiply_mod [x0, x1] [y0, y1] [a', -b', 1] p
      = if (0 + x1 * y1) % (p : Int) = 0
        then [(0 + x0 * y0) % (p : Int),
              ((0 + x0 * y1) % (p : Int) + x1 * y0) % (p : Int)]
        else [((0 + x0 * y0) % (p : Int)
                - (0 + x1 * y1) % (p : Int) * a') % (p : Int),
              (((0 + x0 * y1) % (p : Int) + x1 * y0) % (p : Int)
                - (0 + x1 * y1) % (p : Int) * -b') % (p : Int)] := by
  have h1 : Numbertheory.polynomial_multiply_mod [x0, x1] [y0, y1] [a', -b', 1] p
      = Numbertheory.polynomial_reduce_mod (2 + 1)
          [(0 + x0 * y0) % (p : Int),
           ((0 + x0 * y1) % (p : Int) + x1 * y0) % (p : Int),
           (0 + x1 * y1) % (p : Int)] [a', -b', 1] p := rfl
  have h2 : ∀ P0 P1 P2 : Int,
      Numbertheory.reduceStep [P0, P1, P2] [a', -b', 1] p
        = if P2 = 0 then [P0, P1]
          else [(P0 - P2 * a') % (p : Int), (P1 - P2 * -b') % (p : Int)] :=
    fun _ _ _ => rfl
  rw [h1, reduce_mod_step 2 _ _ _ (by norm_num), h2]
  by_cases hq : (0 + x1 * y1) % (p : Int) = 0
  · rw [if_pos hq]
    exact reduce_mod_stop 2 _ _ _ (by norm_num)
  · rw [if_neg hq]
    exact reduce_mod_stop 2 _ _ _ (by norm_num)

/-- Closed form of the degree-`(2,1)` polynomial product (no reduction). -/
theorem polymul21 (p : Nat) (x0 x1 y0 a' b' : Int) :
    Numbertheory.polynomial_multiply_mod [x0, x1] [y0] [a', -b', 1] p
      = [(0 + x0 * y0) % (p : Int), (0 + x1 * y0) % (p : Int)] := rfl

theorem int_emod_bounds (p : Nat) (hp : 0 < p) (z : Int) :
    0 ≤ z % (p : Int) ∧ z % (p : Int) < p := by
  constructor
  · exact Int.emod_nonneg z (by exact_mod_cast hp.ne')
  · exact Int.emod_lt_of_pos z (by exact_mod_cast hp)

/-- The `(2,2)` product denotes the ring product. -/
theorem evalFp_mul22 (p : ℕ) [NeZero p] (a b : ZMod p) (a' b' : Int)
    (ha : ((a' : Int) : ZMod p) = a) (hb : ((b' : Int) : ZMod p) = b)
    (x0 x1 y0 y1 : Int) :
    evalFp p a b (Numbertheory.polynomial_multiply_mod [x0, x1] [y0, y1]
        [a', -b', 1] p)
      = evalFp p a b [x0, x1] * evalFp p a b [y0, y1] ∧
    (Numbertheory.polynomial_multiply_mod [x0, x1] [y0, y1] [a', -b', 1] p).length
      = 2 ∧
    ∀ z ∈ Numbertheory.polynomial_multiply_mod [x0, x1] [y0, y1] [a', -b', 1] p,
      0 ≤ z ∧ z < p := by
  have hp : 0 < p := Nat.pos_of_ne_zero (NeZero.ne p)
  rw [polymul22]
  split_ifs with hq
  · have hq' : ((x1 : Int) : ZMod p) * ((y1 : Int) : ZMod p) = 0 := by
      have h := congrArg (fun z : Int => ((z : Int) : ZMod p)) hq
      simpa [ZMod.intCast_mod] using h
    refine ⟨?_, rfl, ?_⟩
    · ext
      · show (((0 + x0 * y0) % (p : Int) : Int) : ZMod p)
          = ((x0 : Int) : ZMod p) * ((y0 : Int) : ZMod p)
            - a * (((x1 : Int) : ZMod p) * ((y1 : Int) : ZMod p))
        rw [ZMod.intCast_mod]
        push_cast
        linear_combination a * hq'
      · show ((((0 + x0 * y1) % (p : Int) + x1 * y0) % (p : Int) : Int) : ZMod p)
          = ((x0 : Int) : ZMod p) * ((y1 : Int) : ZMod p)
            + ((x1 : Int) : ZMod p) * ((y0 : Int) : ZMod p)
            + b * (((x1 : Int) : ZMod p) * ((y1 : Int) : ZMod p))
        rw [ZMod.intCast_mod]
        push_cast [ZMod.intCast_mod]
        linear_combination (-b) * hq'
    · intro z hz
      rcases List.mem_cons.mp hz with rfl | hz
      · exact int_emod_bounds p hp _
      · rcases List.mem_cons.mp hz with rfl | hz
        · exact int_emod_bounds p hp _
        · cases hz
  · refine ⟨?_, rfl, ?_⟩
    · ext
      · show ((((0 + x0 * y0) % (p : Int)
            - (0 + x1 * y1) % (p : Int) * a') % (p : Int) : Int) : ZMod p)
          = ((x0 : Int) : ZMod p) * ((y0 : Int) : ZMod p)
            - a * (((x1 : Int) : ZMod p) * ((y1 : Int) : ZMod p))
        rw [ZMod.intCast_mod]
        push_cast [ZMod.intCast_mod, ha]
        ring
      · show (((((0 + x0 * y1) % (p : Int) + x1 * y0) % (p : Int)
            - (0 + x1 * y1) % (p : Int) * -b') % (p : Int) : Int) : ZMod p)
          = ((x0 : Int) : ZMod p) * ((y1 : Int) : ZMod p)
            + ((x1 : Int) : ZMod p) * ((y0 : Int) : ZMod p)
            + b * (((x1 : Int) : ZMod p) * ((y1 : Int) : ZMod p))
        rw [ZMod.intCast_mod]
        push_cast [ZMod.intCast_mod, hb]
        ring
    · intro z hz
      rcases List.mem_cons.mp hz with rfl | hz
      · exact int_emod_bounds p hp _
      · rcases List.mem_cons.mp hz with rfl | hz
        · exact int_emod_bounds p hp _
        · cases hz

/-- The `(2,1)` product denotes the ring product. -/
theorem evalFp_mul21 (p : ℕ) [NeZero p] (a b : ZMod p) (a' b' : Int)
    (x0 x1 y0 : Int) :
    evalFp p a b (Numbertheory.polynomial_multiply_mod [x0, x1] [y0]
        [a', -b', 1] p)
      = evalFp p a b [x0, x1] * evalFp p a b [y0] ∧
    (Numbertheory.polynomial_multiply_mod [x0, x1] [y0] [a', -b', 1] p).length
      = 2 ∧
    ∀ z ∈ Numbertheory.polynomial_multiply_mod [x0, x1] [y0] [a', -b', 1] p,
      0 ≤ z ∧ z < p := by
  have hp : 0 < p := Nat.pos_of_ne_zero (NeZero.ne p)
  rw [polymul21]
  refine ⟨?_, rfl, ?_⟩
  · ext
    · show (((0 + x0 * y0) % (p : Int) : Int) : ZMod p)
        = ((x0 : Int) : ZMod p) * ((y0 : Int) : ZMod p)
          - a * (((x1 : Int) : ZMod p) * (((0 : Int)) : ZMod p))
      rw [ZMod.intCast_mod]
      push_cast
      ring
    · show (((0 + x1 * y0) % (p : Int) : Int) : ZMod p)
        = ((x0 : Int) : ZMod p) * (((0 : Int)) : ZMod p)
          + ((x1 : Int) : ZMod p) * ((y0 : Int) : ZMod p)
          + b * (((x1 : Int) : ZMod p) * (((0 : Int)) : ZMod p))
      rw [ZMod.intCast_mod]
      push_cast
      ring
  · intro z hz
    rcases List.mem_cons.mp hz with rfl | hz
    · exact int_emod_bounds p hp _
    · rcases List.mem_cons.mp hz with rfl | hz
      · exact int_emod_bounds p hp _
      · cases hz

theorem powModAux_spec (m : Nat) (hm : 0 < m) :
    ∀ fuel b e acc, e ≤ fuel → acc < m →
      powModAux m fuel b e acc = acc * b ^ e % m := by
  intro fuel
  induction fuel with
  | zero =>
    intro b e acc he hacc
    obtain rfl : e = 0 := by omega
    show acc = acc * b ^ 0 % m
    rw [pow_zero, mul_one, Nat.mod_eq_of_lt hacc]
  | succ f ih =>
    intro b e acc he hacc
    by_cases he0 : e = 0
    · subst he0
      rw [powModAux, if_pos rfl, pow_zero, mul_one, Nat.mod_eq_of_lt hacc]
    · rw [powModAux, if_neg he0]
      have hacc' : (if e % 2 = 1 then acc * b % m else acc) < m := by
        split_ifs
        · exact Nat.mod_lt _ hm
        · exact hacc
      rw [ih (b * b % m) (e / 2) _ (by omega) hacc']
      by_cases hodd : e % 2 = 1
      · rw [if_pos hodd]
        calc (acc * b % m) * (b * b % m) ^ (e / 2) % m
            = (acc * b) * ((b * b) ^ (e / 2)) % m :=
              (Nat.mod_modEq (acc * b) m).mul ((Nat.mod_modEq (b * b) m).pow (e / 2))
          _ = acc * b ^ e % m := by
              congr 1
              conv_rhs => rw [show e = 2 * (e / 2) + 1 from by omega]
              rw [pow_succ, pow_mul]
              ring
      · rw [if_neg hodd]
        calc acc * (b * b % m) ^ (e / 2) % m
            = acc * ((b * b) ^ (e / 2)) % m :=
              (Nat.ModEq.refl acc).mul ((Nat.mod_modEq (b * b) m).pow (e / 2))
          _ = acc * b ^ e % m := by
              congr 1
              conv_rhs => rw [show e = 2 * (e / 2) from by omega]
              rw [pow_mul]
              ring

/-- `pow(b, e, m)` is `b ^ e % m`. -/
theorem powMod_spec (b e m : Nat) (hm : 0 < m) : powMod b e m = b ^ e % m := by
  rw [powMod, powModAux_spec m hm e b e (1 % m) le_rfl (Nat.mod_lt _ hm)]
  calc (1 % m) * b ^ e % m
      = 1 * b ^ e % m := (Nat.mod_modEq 1 m).mul (Nat.ModEq.refl _)
    _ = b ^ e % m := by rw [one_mul]

theorem powMod_cast (p : ℕ) [NeZero p] (b e : Nat) :
    ((powMod b e p : Nat) : ZMod p) = (b : ZMod p) ^ e := by
  rw [powMod_spec b e p (Nat.pos_of_ne_zero (NeZero.ne p)), ZMod.natCast_mod,
    Nat.cast_pow]

theorem exists_pair_of_len2 (l : List Int) (h : l.length = 2) :
    ∃ u v, l = [u, v] := by
  match l, h with
  | [u, v], _ => exact ⟨u, v, rfl⟩

theorem exists_single_of_len1 (l : List Int) (h : l.length = 1) :
    ∃ u, l = [u] := by
  match l, h with
  | [u], _ => exact ⟨u, rfl⟩

/-- Combined form of the two product lemmas, for a length-2 left factor and
a length-1-or-2 right factor. -/
theorem evalFp_mulAny (p : ℕ) [NeZero p] (a b : ZMod p) (a' b' : Int)
    (ha : ((a' : Int) : ZMod p) = a) (hb : ((b' : Int) : ZMod p) = b)
    (x y : List Int) (hx : x.length = 2) (hy : y.length = 1 ∨ y.length = 2) :
    evalFp p a b (Numbertheory.polynomial_multiply_mod x y [a', -b', 1] p)
      = evalFp p a b x * evalFp p a b y ∧
    (Numbertheory.polynomial_multiply_mod x y [a', -b', 1] p).length = 2 ∧
    ∀ z ∈ Numbertheory.polynomial_multiply_mod x y [a', -b', 1] p,
      0 ≤ z ∧ z < p := by
  obtain ⟨x0, x1, rfl⟩ := exists_pair_of_len2 x hx
  rcases hy with hy | hy
  · obtain ⟨y0, rfl⟩ := exists_single_of_len1 y hy
    exact evalFp_mul21 p a b a' b' x0 x1 y0
  · obtain ⟨y0, y1, rfl⟩ := exists_pair_of_len2 y hy
    exact evalFp_mul22 p a b a' b' ha hb x0 x1 y0 y1

theorem polyExpLoop_step (f k : Nat) (G s polymod : List Int) (p : Nat)
    (hk : 1 < k) :
    Numbertheory.polyExpLoop (f + 1) k G s polymod p
      = Numbertheory.polyExpLoop f (k / 2)
          (Numbertheory.polynomial_multiply_mod G G polymod p)
          (if k / 2 % 2 = 1
           then Numbertheory.polynomial_multiply_mod
                  (Numbertheory.polynomial_multiply_mod G G polymod p) s polymod p
           else s) polymod p := by
  rw [Numbertheory.polyExpLoop, if_pos hk]

theorem polyExpLoop_stop (f k : Nat) (G s polymod : List Int) (p : Nat)
    (hk : ¬ 1 < k) :
    Numbertheory.polyExpLoop f k G s polymod p = s := by
  cases f with
  | zero => rfl
  | succ f => rw [Numbertheory.polyExpLoop, if_neg hk]

/-- Invariant of the `while k > 1` square-and-multiply loop: the result
denotes `s * G ^ (k - k % 2)` in the extension ring, and is a short list of
reduced coefficients. -/
theorem polyExpLoop_spec (p : ℕ) [NeZero p] (a b : ZMod p) (a' b' : Int)
    (ha : ((a' : Int) : ZMod p) = a) (hb : ((b' : Int) : ZMod p) = b) :
    ∀ (fuel k : Nat) (G s : List Int), k ≤ fuel → G.length = 2 →
      (s.length = 1 ∨ s.length = 2) → (∀ z ∈ s, 0 ≤ z ∧ z < (p : Int)) →
      evalFp p a b (Numbertheory.polyExpLoop fuel k G s [a', -b', 1] p)
        = evalFp p a b s * evalFp p a b G ^ (k - k % 2) ∧
      ((Numbertheory.polyExpLoop fuel k G s [a', -b', 1] p).length = 1 ∨
        (Numbertheory.polyExpLoop fuel k G s [a', -b', 1] p).length = 2) ∧
      ∀ z ∈ Numbertheory.polyExpLoop fuel k G s [a', -b', 1] p,
        0 ≤ z ∧ z < (p : Int) := by
  intro fuel
  induction fuel with
  | zero =>
    intro k G s hk hG hs1 hs2
    obtain rfl : k = 0 := by omega
    rw [polyExpLoop_stop _ _ _ _ _ _ (by omega)]
    refine ⟨?_, hs1, hs2⟩
    norm_num
  | succ f ih =>
    intro k G s hk hG hs1 hs2
    by_cases hk1 : 1 < k
    · rw [polyExpLoop_step f k G s _ p hk1]
      obtain ⟨hGmul, hGlen, hGrange⟩ :=
        evalFp_mulAny p a b a' b' ha hb G G hG (Or.inr hG)
      set G' := Numbertheory.polynomial_multiply_mod G G [a', -b', 1] p with hG'
      have hs' : evalFp p a b (if k / 2 % 2 = 1
              then Numbertheory.polynomial_multiply_mod G' s [a', -b', 1] p
              else s)
            = evalFp p a b s * evalFp p a b G' ^ (k / 2 % 2) ∧
          ((if k / 2 % 2 = 1
              then Numbertheory.polynomial_multiply_mod G' s [a', -b', 1] p
              else s).length = 1 ∨
           (if k / 2 % 2 = 1
              then Numbertheory.polynomial_multiply_mod G' s [a', -b', 1] p
              else s).length = 2) ∧
          ∀ z ∈ (if k / 2 % 2 = 1
              then Numbertheory.polynomial_multiply_mod G' s [a', -b', 1] p
              else s), 0 ≤ z ∧ z < (p : Int) := by
        by_cases hbit : k / 2 % 2 = 1
        · rw [if_pos hbit, hbit, pow_one]
          obtain ⟨hm, hl, hr⟩ := evalFp_mulAny p a b a' b' ha hb G' s hGlen hs1
          exact ⟨by rw [hm]; ring, Or.inr hl, hr⟩
        · rw [if_neg hbit]
          have hz2 : k / 2 % 2 = 0 := by omega
          rw [hz2, pow_zero, mul_one]
          exact ⟨rfl, hs1, hs2⟩
      obtain ⟨hsm, hsl, hsr⟩ := hs'
      obtain ⟨hLm, hLl, hLr⟩ := ih (k / 2) G' _ (by omega) hGlen hsl hsr
      refine ⟨?_, hLl, hLr⟩
      rw [hLm, hsm, hGmul]
      have h2 : k - k % 2 = 2 * (k / 2) := by omega
      rw [h2, pow_mul]
      have h3 : k / 2 = k / 2 % 2 + (k / 2 - k / 2 % 2) := by omega
      conv_rhs => rw [h3]
      rw [pow_add]
      ring
    · rw [polyExpLoop_stop _ _ _ _ _ _ hk1]
      have h0 : k - k % 2 = 0 := by omega
      rw [h0, pow_zero, mul_one]
      exact ⟨rfl, hs1, hs2⟩

/-- `polynomial_exp_mod([0, 1], e, [a, -b, 1], p)` denotes `gen ^ e` in the
extension ring `GF(p)[x]/(x^2 - b x + a)`, as a short reduced list. -/
theorem polynomial_exp_mod_gen (p : ℕ) [NeZero p] (a b : ZMod p) (a' b' : Int)
    (ha : ((a' : Int) : ZMod p) = a) (hb : ((b' : Int) : ZMod p) = b)
    (hp2 : 1 < p) (e : Nat) :
    evalFp p a b (Numbertheory.polynomial_exp_mod [0, 1] e [a', -b', 1] p)
      = Fp2.gen ^ e ∧
    ((Numbertheory.polynomial_exp_mod [0, 1] e [a', -b', 1] p).length = 1 ∨
      (Numbertheory.polynomial_exp_mod [0, 1] e [a', -b', 1] p).length = 2) ∧
    ∀ z ∈ Numbertheory.polynomial_exp_mod [0, 1] e [a', -b', 1] p,
      0 ≤ z ∧ z < (p : Int) := by
  have hgen : evalFp p a b [0, 1] = Fp2.gen := by
    ext
    · show ((0 : Int) : ZMod p) = 0
      norm_num
    · show ((1 : Int) : ZMod p) = 1
      norm_num
  have hone : evalFp p a b [1] = 1 := by
    ext
    · show ((1 : Int) : ZMod p) = 1
      norm_num
    · show ((0 : Int) : ZMod p) = 0
      norm_num
  by_cases he : e = 0
  · subst he
    rw [Numbertheory.polynomial_exp_mod, if_pos rfl]
    refine ⟨by rw [hone, pow_zero], Or.inl rfl, ?_⟩
    intro z hz
    rcases List.mem_cons.mp hz with rfl | hz
    · constructor
      · norm_num
      · exact_mod_cast hp2
    · cases hz
  · rw [Numbertheory.polynomial_exp_mod, if_neg he]
    have hslen : ((if e % 2 = 1 then [(0 : Int), 1] else [1]).length = 1 ∨
        (if e % 2 = 1 then [(0 : Int), 1] else [1]).length = 2) := by
      split_ifs
      · exact Or.inr rfl
      · exact Or.inl rfl
    have hsrange : ∀ z ∈ (if e % 2 = 1 then [(0 : Int), 1] else [1]),
        0 ≤ z ∧ z < (p : Int) := by
      intro z hz
      split_ifs at hz
      · rcases List.mem_cons.mp hz with rfl | hz
        · exact ⟨le_refl 0, by exact_mod_cast Nat.pos_of_ne_zero (NeZero.ne p)⟩
        · rcases List.mem_cons.mp hz with rfl | hz
          · exact ⟨by norm_num, by exact_mod_cast hp2⟩
          · cases hz
      · rcases List.mem_cons.mp hz with rfl | hz
        · exact ⟨by norm_num, by exact_mod_cast hp2⟩
        · cases hz
    obtain ⟨hLm, hLl, hLr⟩ := polyExpLoop_spec p a b a' b' ha hb e e [0, 1]
      (if e % 2 = 1 then [(0 : Int), 1] else [1]) le_rfl rfl hslen hsrange
    refine ⟨?_, hLl, hLr⟩
    rw [hLm, hgen]
    by_cases hodd : e % 2 = 1
    · rw [if_pos hodd, hgen, ← pow_succ']
      congr 1
      omega
    · rw [if_neg hodd, hone, one_mul]
      congr 1
      omega

/-! ## C7: the two closed-form branches -/

theorem natsq_of_cast (p r a : Nat) [NeZero p] (ha : a < p)
    (h : ((r : Nat) : ZMod p) * ((r : Nat) : ZMod p) = ((a : Nat) : ZMod p)) :
    r * r % p = a := by
  have hc : ((r * r : Nat) : ZMod p) = ((a : Nat) : ZMod p) := by
    push_cast
    push_cast at h
    exact h
  have hm : r * r ≡ a [MOD p] := (ZMod.natCast_eq_natCast_iff _ _ _).mp hc
  calc r * r % p = a % p := hm
    _ = a := Nat.mod_eq_of_lt ha

theorem two_ne_zero_zmod (p : ℕ) [Fact p.Prime] (hp2 : p ≠ 2) :
    (2 : ZMod p) ≠ 0 := by
  intro h
  have h' : ((2 : Nat) : ZMod p) = 0 := by exact_mod_cast h
  have hdvd := (ZMod.natCast_zmod_eq_zero_iff_dvd 2 p).mp h'
  exact hp2 ((Nat.prime_dvd_prime_iff_eq (Fact.out : p.Prime) Nat.prime_two).mp hdvd)

/-- `2` has Legendre symbol `-1` mod a prime `p ≡ 5 (mod 8)`. -/
theorem two_pow_half_p8_5 (p : ℕ) [Fact p.Prime] (hp8 : p % 8 = 5) :
    (2 : ZMod p) ^ (p / 2) = -1 := by
  have hp2 : p ≠ 2 := by omega
  have hns : ¬ IsSquare (2 : ZMod p) := by
    rw [ZMod.exists_sq_eq_two_iff hp2]
    omega
  have h20 : (2 : ZMod p) ≠ 0 := two_ne_zero_zmod p hp2
  have hple : 2 ≤ p := (Fact.out : p.Prime).two_le
  have hsq1 : ((2 : ZMod p) ^ (p / 2)) * ((2 : ZMod p) ^ (p / 2)) = 1 := by
    rw [← pow_add, show p / 2 + p / 2 = p - 1 from by omega]
    exact ZMod.pow_card_sub_one_eq_one h20
  rcases mul_self_eq_one_iff.mp hsq1 with h | h
  · exact absurd ((ZMod.euler_criterion p h20).mpr h) hns
  · exact h

/-- The `p % 4 == 3` branch returns a square root. -/
theorem sqrt_branch_p4_3 (a p : Nat) [Fact p.Prime] (hp4 : p % 4 = 3)
    (ha : a < p) (ha0 : ((a : Nat) : ZMod p) ≠ 0)
    (hsq : IsSquare ((a : Nat) : ZMod p)) :
    powMod a ((p + 1) / 4) p * powMod a ((p + 1) / 4) p % p = a := by
  haveI : NeZero p := ⟨(Fact.out : p.Prime).ne_zero⟩
  apply natsq_of_cast p _ a ha
  rw [powMod_cast, ← pow_add]
  have hple : 2 ≤ p := (Fact.out : p.Prime).two_le
  rw [show (p + 1) / 4 + (p + 1) / 4 = p / 2 + 1 from by omega, pow_succ,
    (ZMod.euler_criterion p ha0).mp hsq, one_mul]

/-- The `p % 8 == 5` branch: the probe `d` is `1` or `p - 1`, and each of
the two closed forms squares to `a`. -/
theorem sqrt_branch_p8_5 (a p : Nat) [Fact p.Prime] (hp8 : p % 8 = 5)
    (ha : a < p) (ha0 : ((a : Nat) : ZMod p) ≠ 0)
    (hsq : IsSquare ((a : Nat) : ZMod p)) :
    (powMod a ((p - 1) / 4) p = 1 ∨ powMod a ((p - 1) / 4) p = p - 1) ∧
    (powMod a ((p - 1) / 4) p = 1 →
      powMod a ((p + 3) / 8) p * powMod a ((p + 3) / 8) p % p = a) ∧
    (powMod a ((p - 1) / 4) p = p - 1 →
      (2 * a * powMod (4 * a) ((p - 5) / 8) p % p)
        * (2 * a * powMod (4 * a) ((p - 5) / 8) p % p) % p = a) := by
  haveI : NeZero p := ⟨(Fact.out : p.Prime).ne_zero⟩
  have hple : 2 ≤ p := (Fact.out : p.Prime).two_le
  have hppos : 0 < p := by omega
  have hdlt : powMod a ((p - 1) / 4) p < p := by
    rw [powMod_spec _ _ _ hppos]
    exact Nat.mod_lt _ hppos
  have hdcast : ((powMod a ((p - 1) / 4) p : Nat) : ZMod p)
      = ((a : Nat) : ZMod p) ^ ((p - 1) / 4) := powMod_cast p a _
  have hDsq : (((a : Nat) : ZMod p) ^ ((p - 1) / 4))
      * (((a : Nat) : ZMod p) ^ ((p - 1) / 4)) = 1 := by
    rw [← pow_add, show (p - 1) / 4 + (p - 1) / 4 = p / 2 from by omega,
      (ZMod.euler_criterion p ha0).mp hsq]
  have htot : powMod a ((p - 1) / 4) p = 1 ∨ powMod a ((p - 1) / 4) p = p - 1 := by
    rcases mul_self_eq_one_iff.mp hDsq with h | h
    · left
      have hc : ((powMod a ((p - 1) / 4) p : Nat) : ZMod p)
          = ((1 : Nat) : ZMod p) := by
        rw [hdcast, h]
        norm_num
      have hmod : powMod a ((p - 1) / 4) p % p = 1 % p :=
        (ZMod.natCast_eq_natCast_iff _ _ _).mp hc
      rw [Nat.mod_eq_of_lt hdlt, Nat.mod_eq_of_lt (by omega)] at hmod
      exact hmod
    · right
      have hc : ((powMod a ((p - 1) / 4) p + 1 : Nat) : ZMod p) = 0 := by
        push_cast
        rw [hdcast, h]
        ring
      have hdvd := (ZMod.natCast_zmod_eq_zero_iff_dvd _ p).mp hc
      have hge := Nat.le_of_dvd (by omega) hdvd
      omega
  refine ⟨htot, ?_, ?_⟩
  · intro h1
    have hDval : ((a : Nat) : ZMod p) ^ ((p - 1) / 4) = 1 := by
      rw [← hdcast, h1]
      exact Nat.cast_one
    apply natsq_of_cast p _ a ha
    rw [powMod_cast, ← pow_add,
      show (p + 3) / 8 + (p + 3) / 8 = (p - 1) / 4 + 1 from by omega,
      pow_succ, hDval, one_mul]
  · intro h2
    have hDval : ((a : Nat) : ZMod p) ^ ((p - 1) / 4) = -1 := by
      rw [← hdcast, h2, Nat.cast_sub (by omega), ZMod.natCast_self, zero_sub]
      norm_num
    apply natsq_of_cast p _ a ha
    have hR : (((2 * a * powMod (4 * a) ((p - 5) / 8) p % p : Nat)) : ZMod p)
        = 2 * ((a : Nat) : ZMod p)
          * (4 * ((a : Nat) : ZMod p)) ^ ((p - 5) / 8) := by
      rw [ZMod.natCast_mod]
      push_cast [powMod_cast]
      ring
    rw [hR]
    have h2p : (2 : ZMod p) ^ (p / 2) = -1 := two_pow_half_p8_5 p hp8
    set A := ((a : Nat) : ZMod p) with hA
    set m := (p - 5) / 8 with hm
    calc 2 * A * (4 * A) ^ m * (2 * A * (4 * A) ^ m)
        = A * (4 * A) ^ (m + m + 1) := by
          rw [pow_add, pow_add, pow_one]
          ring
      _ = A * ((4 : ZMod p) ^ (m + m + 1) * A ^ (m + m + 1)) := by
          rw [mul_pow]
      _ = A * ((2 : ZMod p) ^ (2 * (m + m + 1)) * A ^ (m + m + 1)) := by
          rw [pow_mul]
          norm_num
      _ = A * ((2 : ZMod p) ^ (p / 2) * A ^ ((p - 1) / 4)) := by
          rw [show 2 * (m + m + 1) = p / 2 from by omega,
            show m + m + 1 = (p - 1) / 4 from by omega]
      _ = A := by
          rw [h2p, hDval]
          ring

/-! ## C7: the general branch (Cipolla search) -/

/-- For `p ≡ 1 (mod 8)` and `a` a non-zero residue, some `c` in `[2, p)`
has non-residue discriminant `c² - 4a`, so the `for b in range(2, p)` loop
cannot fall through. -/
theorem exists_nonresidue_b (a p : Nat) [Fact p.Prime] (hp8 : p % 8 = 1)
    (ha0 : ((a : Nat) : ZMod p) ≠ 0)
    (hsq : IsSquare ((a : Nat) : ZMod p)) :
    ∃ c, 2 ≤ c ∧ c < p ∧ jacobiSym ((c : Int) * c - 4 * (a : Int)) p = -1 := by
  haveI : NeZero p := ⟨(Fact.out : p.Prime).ne_zero⟩
  have hple : 2 ≤ p := (Fact.out : p.Prime).two_le
  have hp3 : 3 ≤ p := by omega
  have hp2 : p ≠ 2 := by omega
  obtain ⟨u, hu⟩ := FiniteField.exists_nonsquare (F := ZMod p)
    (by rw [ZMod.ringChar_zmod_n]; omega)
  obtain ⟨r, hr⟩ := hsq
  have hr0 : r ≠ 0 := by
    intro h
    apply ha0
    rw [hr, h, mul_zero]
  have hu1 : u ≠ 1 := by
    intro h
    exact hu (h ▸ isSquare_one)
  have hun1 : u ≠ -1 := by
    intro h
    apply hu
    rw [h]
    exact ZMod.exists_sq_eq_neg_one_iff.mpr (by omega)
  have hu1' : u - 1 ≠ 0 := sub_ne_zero.mpr hu1
  have hu1p : u + 1 ≠ 0 := by
    intro h
    apply hun1
    linear_combination h
  have h20 : (2 : ZMod p) ≠ 0 := two_ne_zero_zmod p hp2
  have h40 : (4 : ZMod p) ≠ 0 := by
    intro h
    apply h20
    have h4 : (2 : ZMod p) * 2 = 0 := by
      rw [show (2 : ZMod p) * 2 = 4 from by norm_num, h]
    rcases mul_eq_zero.mp h4 with h' | h' <;> exact h'
  set β := 2 * r * (u + 1) * (u - 1)⁻¹ with hβ
  set v := 4 * r * (u - 1)⁻¹ with hv
  have hv0 : v ≠ 0 := by
    rw [hv]
    exact mul_ne_zero (mul_ne_zero h40 hr0) (inv_ne_zero hu1')
  have hβ0 : β ≠ 0 := by
    rw [hβ]
    exact mul_ne_zero (mul_ne_zero (mul_ne_zero h20 hr0) hu1p) (inv_ne_zero hu1')
  have hkey : β * β - 4 * ((a : Nat) : ZMod p) = u * (v * v) := by
    rw [hβ, hv, hr]
    field_simp
    ring
  have hns : ¬ IsSquare (β * β - 4 * ((a : Nat) : ZMod p)) := by
    rw [hkey]
    rintro ⟨w, hw⟩
    apply hu
    refine ⟨w * v⁻¹, ?_⟩
    field_simp
    linear_combination hw
  have hβval : β.val < p := ZMod.val_lt β
  have hβval0 : β.val ≠ 0 := by
    intro h
    exact hβ0 ((ZMod.val_eq_zero β).mp h)
  have main : ∀ c : Nat, ((((c : Nat)) : ZMod p) = β ∨ (((c : Nat)) : ZMod p) = -β) →
      jacobiSym ((c : Int) * c - 4 * (a : Int)) p = -1 := by
    intro c hc
    rw [← jacobiSym.legendreSym.to_jacobiSym]
    apply (legendreSym.eq_neg_one_iff p).mpr
    have hcast2 : (((c : Int) * c - 4 * ((a : Nat) : Int) : Int) : ZMod p)
        = β * β - 4 * ((a : Nat) : ZMod p) := by
      push_cast
      rcases hc with h | h
      · rw [h]
      · rw [h]
        ring
    rw [hcast2]
    exact hns
  refine ⟨if β.val ≤ 1 then p - β.val else β.val, ?_, ?_, ?_⟩
  · split_ifs with h
    · omega
    · omega
  · split_ifs with h
    · omega
    · exact hβval
  · apply main
    split_ifs with h
    · right
      rw [Nat.cast_sub (by omega), ZMod.natCast_self, zero_sub,
        ZMod.natCast_rightInverse β]
    · left
      exact ZMod.natCast_rightInverse β

theorem bSearch_step (a p f b : Nat) [Fact p.Prime] (hodd : p % 2 = 1)
    (hp3 : 3 ≤ p) (hbp : b < p) :
    Numbertheory.bSearch a p (f + 1) b
      = (if jacobiSym ((b : Int) * b - 4 * (a : Int)) p = -1 then
          (if (Numbertheory.polynomial_exp_mod [0, 1] ((p + 1) / 2)
                [(a : Int), -(b : Int), 1] p).getD 1 0 ≠ 0
           then .error .notPrime
           else .ok ((Numbertheory.polynomial_exp_mod [0, 1] ((p + 1) / 2)
                [(a : Int), -(b : Int), 1] p).getD 0 0).toNat)
         else Numbertheory.bSearch a p f (b + 1)) := by
  rw [Numbertheory.bSearch, if_neg (by omega),
    jacobi_eq_jacobiSym p p _ hodd hp3 le_rfl]

/-- The search loop of the general branch: if some `c ≥ b` below `p` has
non-residue discriminant, the loop returns a square root of `a`. -/
theorem bSearch_found (a p : Nat) [Fact p.Prime] (hodd : p % 2 = 1)
    (hp3 : 3 ≤ p) (ha : a < p) (ha0 : ((a : Nat) : ZMod p) ≠ 0)
    (hsq : IsSquare ((a : Nat) : ZMod p)) :
    ∀ fuel b, p - b ≤ fuel →
      (∃ c, b ≤ c ∧ c < p ∧ jacobiSym ((c : Int) * c - 4 * (a : Int)) p = -1) →
      ∃ r, Numbertheory.bSearch a p fuel b = .ok r ∧ r * r % p = a := by
  haveI : NeZero p := ⟨(Fact.out : p.Prime).ne_zero⟩
  intro fuel
  induction fuel with
  | zero =>
    intro b hfb hex
    obtain ⟨c, hbc, hcp, _⟩ := hex
    omega
  | succ f ih =>
    intro b hfb hex
    obtain ⟨c, hbc, hcp, hcj⟩ := hex
    have hbp : b < p := by omega
    by_cases hj : jacobiSym ((b : Int) * b - 4 * (a : Int)) p = -1
    · rw [bSearch_step a p f b hodd hp3 hbp, if_pos hj]
      have hcastd : ((((b : Int) * b - 4 * (a : Int) : Int)) : ZMod p)
          = ((b : Nat) : ZMod p) * ((b : Nat) : ZMod p)
            - 4 * ((a : Nat) : ZMod p) := by
        push_cast
        ring
      have hd : ¬ IsSquare (((b : Nat) : ZMod p) * ((b : Nat) : ZMod p)
          - 4 * ((a : Nat) : ZMod p)) := by
        rw [← hcastd]
        exact (legendreSym.eq_neg_one_iff p).mp
          (by rw [jacobiSym.legendreSym.to_jacobiSym]; exact hj)
      obtain ⟨hEm, hEl, hEr⟩ := polynomial_exp_mod_gen p ((a : Nat) : ZMod p)
        ((b : Nat) : ZMod p) (a : Int) (b : Int) (by push_cast; ring)
        (by push_cast; ring) (by omega) ((p + 1) / 2)
      obtain ⟨hc1, hc0⟩ := cipolla_root (p := p) (a := ((a : Nat) : ZMod p))
        (b := ((b : Nat) : ZMod p)) hodd hd hsq
      have hget : ∀ i, 0 ≤ (Numbertheory.polynomial_exp_mod [0, 1] ((p + 1) / 2)
            [(a : Int), -(b : Int), 1] p).getD i 0 ∧
          (Numbertheory.polynomial_exp_mod [0, 1] ((p + 1) / 2)
            [(a : Int), -(b : Int), 1] p).getD i 0 < (p : Int) := by
        intro i
        rcases hEl with hl | hl
        · obtain ⟨u, hu⟩ := exists_single_of_len1 _ hl
          rw [hu]
          match i with
          | 0 =>
            apply hEr
            rw [hu]
            exact List.mem_cons_self _ _
          | i + 1 =>
            constructor
            · exact le_refl 0
            · show (0 : Int) < (p : Int)
              exact_mod_cast (by omega : 0 < p)
        · obtain ⟨u, v, hu⟩ := exists_pair_of_len2 _ hl
          rw [hu]
          match i with
          | 0 =>
            apply hEr
            rw [hu]
            exact List.mem_cons_self _ _
          | 1 =>
            apply hEr
            rw [hu]
            exact List.mem_cons_of_mem _ (List.mem_cons_self _ _)
          | i + 2 =>
            constructor
            · exact le_refl 0
            · show (0 : Int) < (p : Int)
              exact_mod_cast (by omega : 0 < p)
      have hcast1 : (((Numbertheory.polynomial_exp_mod [0, 1] ((p + 1) / 2)
            [(a : Int), -(b : Int), 1] p).getD 1 0 : Int) : ZMod p)
          = ((Fp2.gen : Fp2 p ((a : Nat) : ZMod p) ((b : Nat) : ZMod p))
              ^ ((p + 1) / 2)).c1 := by
        rw [← hEm]
        rfl
      have ht10 : (Numbertheory.polynomial_exp_mod [0, 1] ((p + 1) / 2)
          [(a : Int), -(b : Int), 1] p).getD 1 0 = 0 := by
        have hz : (((Numbertheory.polynomial_exp_mod [0, 1] ((p + 1) / 2)
            [(a : Int), -(b : Int), 1] p).getD 1 0 : Int) : ZMod p) = 0 := by
          rw [hcast1, hc1]
        have hdvd := (ZMod.intCast_zmod_eq_zero_iff_dvd _ p).mp hz
        have h0 : (Numbertheory.polynomial_exp_mod [0, 1] ((p + 1) / 2)
            [(a : Int), -(b : Int), 1] p).getD 1 0 % (p : Int) = 0 :=
          Int.emod_eq_zero_of_dvd hdvd
        rw [Int.emod_eq_of_lt (hget 1).1 (hget 1).2] at h0
        exact h0
      refine ⟨((Numbertheory.polynomial_exp_mod [0, 1] ((p + 1) / 2)
          [(a : Int), -(b : Int), 1] p).getD 0 0).toNat, ?_, ?_⟩
      · rw [if_neg (fun h => h ht10)]
      · apply natsq_of_cast p _ a ha
        have hcast0 : ((((Numbertheory.polynomial_exp_mod [0, 1] ((p + 1) / 2)
              [(a : Int), -(b : Int), 1] p).getD 0 0).toNat : Nat) : ZMod p)
            = ((Fp2.gen : Fp2 p ((a : Nat) : ZMod p) ((b : Nat) : ZMod p))
                ^ ((p + 1) / 2)).c0 := by
          have h1 : (((((Numbertheory.polynomial_exp_mod [0, 1] ((p + 1) / 2)
              [(a : Int), -(b : Int), 1] p).getD 0 0).toNat : Nat) : Int) : ZMod p)
              = ((Fp2.gen : Fp2 p ((a : Nat) : ZMod p) ((b : Nat) : ZMod p))
                  ^ ((p + 1) / 2)).c0 := by
            rw [Int.toNat_of_nonneg (hget 0).1, ← hEm]
            rfl
          rw [← h1]
          push_cast
          ring
        rw [hcast0]
        exact hc0
    · rw [bSearch_step a p f b hodd hp3 hbp, if_neg hj]
      have hcb : b ≠ c := by
        intro h
        exact hj (by rw [h]; exact hcj)
      exact ih (b + 1) (by omega) ⟨c, by omega, hcp, hcj⟩

theorem sqrt_mod_prime_unfold (a p : Nat) (hap : a < p) (hp1 : 1 < p)
    (ha0 : a ≠ 0) (hp2 : p ≠ 2) (hodd : p % 2 = 1) (hp3 : 3 ≤ p) :
    Numbertheory.square_root_mod_prime a p
      = (if jacobiSym (a : Int) p = -1
         then .error Numbertheory.SqrtError.noSquareRoot
         else if p % 4 = 3 then .ok (powMod a ((p + 1) / 4) p)
         else if p % 8 = 5 then
           (if powMod a ((p - 1) / 4) p = 1 then .ok (powMod a ((p + 3) / 8) p)
            else if powMod a ((p - 1) / 4) p = p - 1
            then .ok (2 * a * powMod (4 * a) ((p - 5) / 8) p % p)
            else .error Numbertheory.SqrtError.assertionFailed)
         else Numbertheory.bSearch a p p 2) := by
  rw [Numbertheory.square_root_mod_prime, if_neg (not_not_intro ⟨hap, hp1⟩),
    if_neg ha0, if_neg hp2, jacobi_eq_jacobiSym p p (a : Int) hodd hp3 le_rfl]

/-- C7: for every prime `p` and every `a < p`, `square_root_mod_prime(a, p)`
raises the "no square root" error exactly when the Jacobi symbol of `a`
modulo `p` is `-1`; otherwise it returns an `r` with `r² ≡ a (mod p)`,
computed by the `p % 4 == 3` closed form, one of the two `p % 8 == 5`
closed forms, or the polynomial-ring search in the remaining case. -/
theorem square_root_mod_prime_spec (a p : Nat) (hp : p.Prime) (ha : a < p) :
    (Numbertheory.square_root_mod_prime a p
        = Except.error Numbertheory.SqrtError.noSquareRoot
      ↔ jacobiSym (a : Int) p = -1) ∧
    (jacobiSym (a : Int) p ≠ -1 →
      ∃ r, Numbertheory.square_root_mod_prime a p = Except.ok r
        ∧ r * r % p = a) ∧
    (a ≠ 0 → p ≠ 2 → jacobiSym (a : Int) p ≠ -1 →
      (p % 4 = 3 → Numbertheory.square_root_mod_prime a p
          = Except.ok (powMod a ((p + 1) / 4) p)) ∧
      (p % 8 = 5 → (Numbertheory.square_root_mod_prime a p
            = Except.ok (powMod a ((p + 3) / 8) p) ∨
          Numbertheory.square_root_mod_prime a p
            = Except.ok (2 * a * powMod (4 * a) ((p - 5) / 8) p % p))) ∧
      (p % 4 ≠ 3 → p % 8 ≠ 5 → Numbertheory.square_root_mod_prime a p
          = Numbertheory.bSearch a p p 2)) := by
  haveI : Fact p.Prime := ⟨hp⟩
  haveI : NeZero p := ⟨hp.ne_zero⟩
  have hp1 : 1 < p := hp.one_lt
  by_cases ha0 : a = 0
  · subst ha0
    have hres : Numbertheory.square_root_mod_prime 0 p = .ok 0 := by
      rw [Numbertheory.square_root_mod_prime, if_neg (not_not_intro ⟨ha, hp1⟩),
        if_pos rfl]
    have hJ : jacobiSym ((0 : Nat) : Int) p = 0 := by
      rw [Nat.cast_zero, jacobiSym.zero_left hp1]
    refine ⟨?_, ?_, ?_⟩
    · rw [hres, hJ]
      constructor
      · intro h
        exact Except.noConfusion h
      · intro h
        exact absurd h (by norm_num)
    · intro _
      exact ⟨0, hres, by simp⟩
    · intro h0 _ _
      exact absurd rfl h0
  · by_cases hp2 : p = 2
    · subst hp2
      have ha1 : a = 1 := by omega
      subst ha1
      have hres : Numbertheory.square_root_mod_prime 1 2 = .ok 1 := rfl
      have hJ : jacobiSym ((1 : Nat) : Int) 2 = 1 := by
        rw [Nat.cast_one, jacobiSym.one_left]
      refine ⟨?_, ?_, ?_⟩
      · rw [hres, hJ]
        constructor
        · intro h
          exact Except.noConfusion h
        · intro h
          exact absurd h (by norm_num)
      · intro _
        exact ⟨1, hres, by norm_num⟩
      · intro _ hp2' _
        exact absurd rfl hp2'
    · have hodd : p % 2 = 1 := Nat.odd_iff.mp (hp.odd_of_ne_two hp2)
      have hp3 : 3 ≤ p := by omega
      have hunfold := sqrt_mod_prime_unfold a p ha hp1 ha0 hp2 hodd hp3
      have hacast : ((a : Nat) : ZMod p) ≠ 0 := by
        intro h
        have hdvd := (ZMod.natCast_zmod_eq_zero_iff_dvd a p).mp h
        have := Nat.le_of_dvd (by omega) hdvd
        omega
      by_cases hJ : jacobiSym (a : Int) p = -1
      · have hres : Numbertheory.square_root_mod_prime a p
            = .error Numbertheory.SqrtError.noSquareRoot := by
          rw [hunfold, if_pos hJ]
        refine ⟨?_, ?_, ?_⟩
        · rw [hres]
          exact ⟨fun _ => hJ, fun _ => rfl⟩
        · intro h
          exact absurd hJ h
        · intro _ _ h
          exact absurd hJ h
      · have hsq : IsSquare ((a : Nat) : ZMod p) := by
          by_contra hns
          apply hJ
          rw [← jacobiSym.legendreSym.to_jacobiSym]
          apply (legendreSym.eq_neg_one_iff p).mpr
          rw [Int.cast_natCast]
          exact hns
        have hmain : ∃ r, Numbertheory.square_root_mod_prime a p = .ok r
            ∧ r * r % p = a := by
          by_cases h43 : p % 4 = 3
          · exact ⟨_, by rw [hunfold, if_neg hJ, if_pos h43],
              sqrt_branch_p4_3 a p h43 ha hacast hsq⟩
          · by_cases h85 : p % 8 = 5
            · obtain ⟨htot, hb1, hb2⟩ := sqrt_branch_p8_5 a p h85 ha hacast hsq
              rcases htot with h1 | h1
              · refine ⟨_, ?_, hb1 h1⟩
                rw [hunfold, if_neg hJ, if_neg h43, if_pos h85, if_pos h1]
              · refine ⟨_, ?_, hb2 h1⟩
                rw [hunfold, if_neg hJ, if_neg h43, if_pos h85,
                  if_neg (by omega), if_pos h1]
            · have h81 : p % 8 = 1 := by omega
              obtain ⟨c, hc2, hcp, hcj⟩ := exists_nonresidue_b a p h81 hacast hsq
              obtain ⟨r, hbr, hrr⟩ := bSearch_found a p hodd hp3 ha hacast hsq
                p 2 (by omega) ⟨c, hc2, hcp, hcj⟩
              refine ⟨r, ?_, hrr⟩
              rw [hunfold, if_neg hJ, if_neg h43, if_neg h85]
              exact hbr
        obtain ⟨r, hres, hrr⟩ := hmain
        refine ⟨?_, fun _ => ⟨r, hres, hrr⟩, ?_⟩
        · rw [hres]
          constructor
          · intro h
            exact Except.noConfusion h
          · intro h
            exact absurd h hJ
        · intro _ _ _
          refine ⟨?_, ?_, ?_⟩
          · intro h43
            rw [hunfold, if_neg hJ, if_pos h43]
          · intro h85
            have h43 : p % 4 ≠ 3 := by omega
            obtain ⟨htot, _, _⟩ := sqrt_branch_p8_5 a p h85 ha hacast hsq
            rcases htot with h1 | h1
            · left
              rw [hunfold, if_neg hJ, if_neg h43, if_pos h85, if_pos h1]
            · right
              rw [hunfold, if_neg hJ, if_neg h43, if_pos h85,
                if_neg (by omega), if_pos h1]
          · intro h43 h85
            rw [hunfold, if_neg hJ, if_neg h43, if_neg h85]

/-- Witness for C7 at `a = 2`, `p = 7` (where `2 = 4² mod 7`). -/
theorem square_root_mod_prime_spec_witness :
    Nat.Prime 7 ∧ 2 < 7 ∧
    Numbertheory.square_root_mod_prime 2 7 = Except.ok 4 ∧
    (∃ r, Numbertheory.square_root_mod_prime 2 7 = Except.ok r
      ∧ r * r % 7 = 2) :=
  ⟨by norm_num, by norm_num, rfl,
    (square_root_mod_prime_spec 2 7 (by norm_num) (by norm_num)).2.1
      (by
        intro hneg
        have h := jacobi_eq_jacobiSym 7 7 ((2 : Nat) : Int)
          (by norm_num) (by norm_num) le_rfl
        rw [hneg] at h
        exact absurd h (by decide))⟩
